import Mathlib

/-!
Verification of the pasteguard masking/redaction engine.

Texts are modelled as `List Char` (one element per indexing unit, matching
the code's consistent code-unit offsets), JS `Record`s as insertion-ordered
association lists, and PII scores as rationals.  Every definition below is a
direct transcription of the corresponding function in the repository
(`src/services/masking.ts`, the conflict resolver, and the PII detector's
chunking / deduplication helpers).
-/

set_option linter.unusedVariables false
set_option maxRecDepth 2000

namespace Pasteguard

/-- A text: list of indexing units (characters). -/
abbrev Str := List Char

/-- JS `text.slice(s, e)` for non-negative indices: clamps both ends. -/
def sliceL (t : Str) (s e : Nat) : Str := (t.drop s).take (e - s)

/-- First-match lookup in an insertion-ordered association list,
    modelling a JS `Record` read. -/
def alookup (m : List (Str × Str)) (k : Str) : Option Str :=
  match m with
  | [] => none
  | (k', v) :: rest => if k' = k then some v else alookup rest k

/-- JS `Record` property write: overwrite in place if the key exists
    (keeping its insertion position), otherwise append. -/
def aset (m : List (Str × Str)) (k : Str) (v : Str) : List (Str × Str) :=
  match m with
  | [] => [(k, v)]
  | (k', v') :: rest => if k' = k then (k, v) :: rest else (k', v') :: aset rest k v

/-- Counter-record lookup (`Record<string, number>`). -/
def nlookup (m : List (Str × Nat)) (k : Str) : Option Nat :=
  match m with
  | [] => none
  | (k', v) :: rest => if k' = k then some v else nlookup rest k

/-- Counter-record write. -/
def nset (m : List (Str × Nat)) (k : Str) (v : Nat) : List (Str × Nat) :=
  match m with
  | [] => [(k, v)]
  | (k', v') :: rest => if k' = k then (k, v) :: rest else (k', v') :: nset rest k v

/-- Decimal digit character for `n < 10` (as in `Nat.digitChar`). -/
def digitCh (n : Nat) : Char :=
  match n with
  | 0 => '0' | 1 => '1' | 2 => '2' | 3 => '3' | 4 => '4'
  | 5 => '5' | 6 => '6' | 7 => '7' | 8 => '8' | _ => '9'

/-- Fuel-driven digit expansion (structural recursion so that the kernel
    can evaluate it; the fuel is always at least the number). -/
def natCharsGo : Nat → Nat → Str
  | 0, n => [digitCh n]
  | fuel + 1, n =>
    if n < 10 then [digitCh n] else natCharsGo fuel (n / 10) ++ [digitCh (n % 10)]

/-- JS `String(count)` for a natural number: decimal digits, most
    significant first. -/
def natChars (n : Nat) : Str := natCharsGo n n

/-- String literal to character list (for concrete inputs in theorems). -/
def strL (s : String) : Str := s.data

/-- JS `s.indexOf(pat)`: index of the first occurrence of `pat` in `s`,
    if any. -/
def firstIndexOfStr : Str → Str → Option Nat
  | [], pat => if pat = [] then some 0 else none
  | c :: rest, pat =>
    if pat.isPrefixOf (c :: rest) then some 0
    else (firstIndexOfStr rest pat).map (fun i => i + 1)

/-- The `GetSubstitution` expansion JS applies to the replacement string of
    `String.prototype.replace` with a string pattern: `$$` is a dollar sign,
    `$&` the matched string, a dollar before a backquote the part before the
    match, a dollar before a quote the part after it; anything else (still
    including `$1`..`$9`, as a string pattern has no capture groups) is
    literal. -/
def dollarExpand (matched before after : Str) : Str → Str
  | [] => []
  | c :: rest =>
    if c = '$' then
      match rest with
      | [] => ['$']
      | d :: rest2 =>
        if d = '$' then '$' :: dollarExpand matched before after rest2
        else if d = '&' then matched ++ dollarExpand matched before after rest2
        else if d = Char.ofNat 96 then
          before ++ dollarExpand matched before after rest2
        else if d = Char.ofNat 39 then
          after ++ dollarExpand matched before after rest2
        else '$' :: d :: dollarExpand matched before after rest2
    else c :: dollarExpand matched before after rest

/-- JS `s.replace(pat, rep)` with string arguments: replace only the FIRST
    occurrence of `pat`, expanding dollar patterns in `rep`. -/
def jsReplace (s pat rep : Str) : Str :=
  match firstIndexOfStr s pat with
  | none => s
  | some i =>
    s.take i ++ dollarExpand pat (s.take i) (s.drop (i + pat.length)) rep ++
      s.drop (i + pat.length)

/-- `combined.lastIndexOf("<")`: index of the last `'<'`, if any. -/
def lastIndexOfLT (l : Str) : Option Nat :=
  match l with
  | [] => none
  | c :: rest =>
    match lastIndexOfLT rest with
    | some i => some (i + 1)
    | none => if c = '<' then some 0 else none

/-- Fuel-driven scan for `replaceAll` (structural recursion so that the
    kernel can evaluate it; the fuel is always at least the text length). -/
def replaceAllGo (pat rep : Str) : Nat → Str → Str
  | _, [] => []
  | 0, s => s
  | fuel + 1, c :: rest =>
    if pat ≠ [] ∧ pat.isPrefixOf (c :: rest) then
      rep ++ replaceAllGo pat rep fuel ((c :: rest).drop pat.length)
    else
      c :: replaceAllGo pat rep fuel rest

/-- Leftmost, non-overlapping replace-all:
    JS `s.split(pat).join(rep)` for a non-empty pattern. -/
def replaceAll (s pat rep : Str) : Str := replaceAllGo pat rep s.length s

/-! ### Stable sorting

JS `Array.prototype.sort` with a comparator `cmp` is a stable sort; we model
it as insertion sort over the boolean relation `le a b := cmp a b ≤ 0`,
which is the unique stable sort for a total preorder comparator. -/

/-- Insert `a` before the first element `b` with `le a b` (stable insert). -/
def orderedIns (le : α → α → Bool) (a : α) : List α → List α
  | [] => [a]
  | b :: l => if le a b then a :: b :: l else b :: orderedIns le a l

/-- Stable insertion sort by a boolean total preorder. -/
def sortBy (le : α → α → Bool) : List α → List α
  | [] => []
  | a :: l => orderedIns le a (sortBy le l)

/-! ### Data model -/

/-- A detected PII entity (`PIIEntity` in `services/pii-detector.ts`); the
    conflict resolver's `EntityWithScore` has the same fields.  `endPos`
    transcribes the source field `end` (a Lean keyword).  Scores are modelled
    as rationals. -/
structure PIIEntity where
  entity_type : Str
  start : Nat
  endPos : Nat
  score : ℚ
deriving DecidableEq, Repr

/-- `EntityWithScore` from the conflict resolver: identical shape. -/
abbrev EntityWithScore := PIIEntity

/-- `MaskingContext` from `services/masking.ts`. -/
structure MaskingContext where
  mapping : List (Str × Str)
  reverseMapping : List (Str × Str)
  counters : List (Str × Nat)
deriving DecidableEq, Repr

/-- `MaskingConfig` (the two fields the engine reads). -/
structure MaskingConfig where
  show_markers : Bool
  marker_text : Str
deriving DecidableEq, Repr

/-- `MaskResult`. -/
structure MaskResult where
  masked : Str
  context : MaskingContext
deriving DecidableEq, Repr

/-- `createMaskingContext()`. -/
def createMaskingContext : MaskingContext := ⟨[], [], []⟩

/-! ### Masker (`services/masking.ts`) -/

/-- The placeholder string produced by
    `PLACEHOLDER_FORMAT.replace("{TYPE}", entityType).replace("{N}", String(count))`
    with JS first-occurrence-only `.replace` semantics. -/
def mkPlaceholder (entityType : Str) (n : Nat) : Str :=
  jsReplace (jsReplace (strL "<{TYPE}_{N}>") (strL "{TYPE}") entityType)
    (strL "{N}") (natChars n)

/-- The plain concatenation `"<" + TYPE + "_" + N + ">"`; coincides with
    `mkPlaceholder` exactly for types free of replace-template hazards. -/
def plainPlaceholder (entityType : Str) (n : Nat) : Str :=
  '<' :: entityType ++ '_' :: natChars n ++ ['>']

/-- An entity type on which the template substitution is plain
    concatenation: no dollar patterns, and no embedded occurrence of the
    count slot that the second `.replace` would hit first. -/
def SafeType (t : Str) : Prop :=
  '$' ∉ t ∧ firstIndexOfStr t (strL "{N}") = none

instance (t : Str) : Decidable (SafeType t) := by
  unfold SafeType
  infer_instance

/-- `generatePlaceholder`: bumps the per-type counter and builds the token. -/
def generatePlaceholder (entityType : Str) (ctx : MaskingContext) :
    Str × MaskingContext :=
  let count := (nlookup ctx.counters entityType).getD 0 + 1
  (mkPlaceholder entityType count,
   { ctx with counters := nset ctx.counters entityType count })

/-- One step of `mask`'s first pass: look up / allocate the placeholder for
    one entity.  The JS guard `if (!placeholder)` treats both a missing key
    and the empty string as absent. -/
def assignStep (text : Str) (st : MaskingContext × List (PIIEntity × Str))
    (e : PIIEntity) : MaskingContext × List (PIIEntity × Str) :=
  let c := st.1
  let originalValue := sliceL text e.start e.endPos
  let found := (alookup c.reverseMapping originalValue).getD []
  if found = [] then
    let (ph, c1) := generatePlaceholder e.entity_type c
    let c2 := { c1 with
      mapping := aset c1.mapping ph originalValue,
      reverseMapping := aset c1.reverseMapping originalValue ph }
    (c2, st.2 ++ [(e, ph)])
  else
    (c, st.2 ++ [(e, found)])

/-- `mask`'s first pass over the start-ascending entity list: assigns a
    placeholder to every entity (the `entityPlaceholders` map, here an
    ordered association list) while mutating the context. -/
def maskAssign (text : Str) (sorted : List PIIEntity) (ctx : MaskingContext) :
    MaskingContext × List (PIIEntity × Str) :=
  sorted.foldl (assignStep text) (ctx, [])

/-- Comparator `(a, b) => a.start - b.start` as a boolean `≤`. -/
def leStart (a b : PIIEntity) : Bool := a.start ≤ b.start

/-- Comparator `(a, b) => b.start - a.start` as a boolean `≤`. -/
def geStart (a b : PIIEntity) : Bool := b.start ≤ a.start

/-- `entityPlaceholders.get(entity)!` — first-match lookup by entity value. -/
def phOf (apairs : List (PIIEntity × Str)) (e : PIIEntity) : Str :=
  match apairs with
  | [] => []
  | (e', p) :: rest => if e' = e then p else phOf rest e

/-- One replacement of `mask`'s second pass:
    `result.slice(0, start) + placeholder + result.slice(end)`. -/
def spliceAt (result : Str) (s e : Nat) (ph : Str) : Str :=
  result.take s ++ ph ++ result.drop e

/-- `mask(text, entities, context)` from `services/masking.ts`. -/
def mask (text : Str) (entities : List PIIEntity) (ctx : MaskingContext) :
    MaskResult :=
  if entities = [] then ⟨text, ctx⟩
  else
    let sortedByStart := sortBy leStart entities
    let (ctx2, apairs) := maskAssign text sortedByStart ctx
    let sortedByEnd := sortBy geStart entities
    let masked := sortedByEnd.foldl
      (fun result e => spliceAt result e.start e.endPos (phOf apairs e)) text
    ⟨masked, ctx2⟩

/-- Comparator `(a, b) => b.length - a.length` (length descending). -/
def lenGE (a b : Str) : Bool := b.length ≤ a.length

/-- `unmask(text, context, config)`: replace every placeholder of the
    context, longest placeholders first. -/
def unmask (text : Str) (ctx : MaskingContext) (config : MaskingConfig) : Str :=
  let placeholders := sortBy lenGE (ctx.mapping.map Prod.fst)
  placeholders.foldl
    (fun result ph =>
      let originalValue := (alookup ctx.mapping ph).getD []
      let replacement :=
        if config.show_markers then config.marker_text ++ originalValue
        else originalValue
      replaceAll result ph replacement)
    text

/-! ### Streaming unmask -/

/-- `unmaskStreamChunk(buffer, newChunk, context, config)`. -/
def unmaskStreamChunk (buffer newChunk : Str) (ctx : MaskingContext)
    (config : MaskingConfig) : Str × Str :=
  let combined := buffer ++ newChunk
  match lastIndexOfLT combined with
  | none => (unmask combined ctx config, [])
  | some placeholderStart =>
    let afterStart := combined.drop placeholderStart
    if '>' ∈ afterStart then
      (unmask combined ctx config, [])
    else
      (unmask (combined.take placeholderStart) ctx config,
       combined.drop placeholderStart)

/-- `flushStreamBuffer(buffer, context, config)`. -/
def flushStreamBuffer (buffer : Str) (ctx : MaskingContext)
    (config : MaskingConfig) : Str :=
  if buffer = [] then [] else unmask buffer ctx config

/-- Thread a list of chunks through `unmaskStreamChunk`, starting from a
    given buffer; returns the concatenated outputs and the final buffer. -/
def streamGo (b : Str) (chunks : List Str) (ctx : MaskingContext)
    (config : MaskingConfig) : Str × Str :=
  match chunks with
  | [] => ([], b)
  | c :: rest =>
    let r := unmaskStreamChunk b c ctx config
    let r2 := streamGo r.2 rest ctx config
    (r.1 ++ r2.1, r2.2)

/-! ### Span conflict resolver (`conflict-resolver.ts`) -/

/-- `overlaps(a, b)`. -/
def overlaps (a b : PIIEntity) : Prop := a.start < b.endPos ∧ b.start < a.endPos

instance : DecidablePred fun p : PIIEntity × PIIEntity => overlaps p.1 p.2 :=
  fun _ => by unfold overlaps; infer_instance

instance (a b : PIIEntity) : Decidable (overlaps a b) := by
  unfold overlaps; infer_instance

/-- `isContainedIn(a, b)`: `a`'s interval inside `b`'s. -/
def isContainedIn (a b : PIIEntity) : Prop :=
  b.start ≤ a.start ∧ a.endPos ≤ b.endPos

instance (a b : PIIEntity) : Decidable (isContainedIn a b) := by
  unfold isContainedIn; infer_instance

/-- The merge function used by `resolveConflicts` for same-type overlaps:
    `{...a, start: min, end: max, score: max}`. -/
def mergeEnt (a b : PIIEntity) : PIIEntity :=
  { a with
    start := min a.start b.start,
    endPos := max a.endPos b.endPos,
    score := max a.score b.score }

/-- The sweep inside `mergeOverlapping`: `last` is the trailing element of
    the result array, replaced by `merge(last, current)` on overlap. -/
def sweepMerge (mergeFn : PIIEntity → PIIEntity → PIIEntity) :
    PIIEntity → List PIIEntity → List PIIEntity
  | last, [] => [last]
  | last, current :: rest =>
    if overlaps current last then sweepMerge mergeFn (mergeFn last current) rest
    else last :: sweepMerge mergeFn current rest

/-- `mergeOverlapping(intervals, merge)`. -/
def mergeOverlapping (mergeFn : PIIEntity → PIIEntity → PIIEntity)
    (intervals : List PIIEntity) : List PIIEntity :=
  if intervals.length ≤ 1 then intervals
  else
    match sortBy leStart intervals with
    | [] => []
    | x :: rest => sweepMerge mergeFn x rest

/-- Comparator of `removeConflicting`:
    start asc, then end asc, then score desc. -/
def rcLE (a b : PIIEntity) : Bool :=
  if a.start ≠ b.start then a.start ≤ b.start
  else if a.endPos ≠ b.endPos then a.endPos ≤ b.endPos
  else b.score ≤ a.score

/-- The conflict test of `removeConflicting`: exactly coincident with, or
    contained in, an already kept entity. -/
def hasConflict (result : List PIIEntity) (e : PIIEntity) : Bool :=
  result.any fun kept =>
    (e.start = kept.start ∧ e.endPos = kept.endPos) ∨ isContainedIn e kept

/-- `removeConflicting(entities)`. -/
def removeConflicting (entities : List PIIEntity) : List PIIEntity :=
  if entities.length ≤ 1 then entities
  else
    (sortBy rcLE entities).foldl
      (fun result e => if hasConflict result e then result else result ++ [e])
      []

/-- First-occurrence list of the entity types of `entities`
    (`groupBy`'s key insertion order in the `Map`). -/
def addKey (acc : List Str) (t : Str) : List Str :=
  if t ∈ acc then acc else acc ++ [t]

/-- Key order of `groupBy(entities, e => e.entity_type)`. -/
def typeKeys (entities : List PIIEntity) : List Str :=
  entities.foldl (fun acc e => addKey acc e.entity_type) []

/-- `resolveConflicts(entities)`: merge same-type overlaps (per `groupBy`
    group, in key insertion order), then remove cross-type conflicts. -/
def resolveConflicts (entities : List PIIEntity) : List PIIEntity :=
  if entities.length ≤ 1 then entities
  else
    let afterMerge := (typeKeys entities).flatMap fun k =>
      mergeOverlapping mergeEnt (entities.filter fun e => e.entity_type = k)
    removeConflicting afterMerge

/-- Comparator of `resolveOverlaps`: start asc, then length desc
    (`b.end - b.start - (a.end - a.start)` over JS numbers). -/
def soLE (a b : PIIEntity) : Bool :=
  if a.start ≠ b.start then a.start ≤ b.start
  else (b.endPos : Int) - b.start ≤ (a.endPos : Int) - a.start

/-- The sweep inside `resolveOverlaps`: keep `current` only when its start
    is at or after the end of the last kept span. -/
def sweepKeep : PIIEntity → List PIIEntity → List PIIEntity
  | last, [] => [last]
  | last, current :: rest =>
    if last.endPos ≤ current.start then last :: sweepKeep current rest
    else sweepKeep last rest

/-- `resolveOverlaps(entities)` (score-agnostic, for secrets). -/
def resolveOverlaps (entities : List PIIEntity) : List PIIEntity :=
  if entities.length ≤ 1 then entities
  else
    match sortBy soLE entities with
    | [] => []
    | x :: rest => sweepKeep x rest

/-- The score-agnostic resolution exactly as the spec words it: sort by
    `(start asc, length desc)`, then greedily accept a span only if its
    start is `>=` the end of the last accepted span. -/
def specResolveOverlaps (entities : List PIIEntity) : List PIIEntity :=
  (sortBy soLE entities).foldl
    (fun acc current =>
      match acc.getLast? with
      | none => [current]
      | some last => if last.endPos ≤ current.start then acc ++ [current] else acc)
    []

/-! ### Windowed chunker and deduplication (`services/pii-detector.ts`) -/

/-- `CHUNK_SIZE`. -/
def CHUNK_SIZE : Nat := 4000

/-- `CHUNK_OVERLAP`. -/
def CHUNK_OVERLAP : Nat := 200

/-- The `while` loop of `chunkText`, parameterised by the running `start`. -/
def chunkLoop (text : Str) (start : Nat) : List (Str × Nat) :=
  if h : start < text.length then
    let e := min (start + CHUNK_SIZE) text.length
    (sliceL text start e, start) ::
      (if e = text.length then []
       else chunkLoop text (start + (CHUNK_SIZE - CHUNK_OVERLAP)))
  else []
  termination_by text.length - start
  decreasing_by simp only [CHUNK_SIZE, CHUNK_OVERLAP]; omega

/-- `chunkText(text)`: overlapping windows `{ text, start }`. -/
def chunkText (text : Str) : List (Str × Nat) := chunkLoop text 0

/-- The walk of `deduplicateEntities`: `current` is the candidate for the
    current overlap group, `unique` the emitted prefix. -/
def dedupLoop : PIIEntity → List PIIEntity → List PIIEntity
  | current, [] => [current]
  | current, next :: rest =>
    if next.start < current.endPos ∧ next.entity_type = current.entity_type then
      if (next.endPos : Int) - next.start > (current.endPos : Int) - current.start then
        dedupLoop next rest
      else if next.score > current.score then dedupLoop next rest
      else dedupLoop current rest
    else current :: dedupLoop next rest

/-- `deduplicateEntities(entities)`. -/
def deduplicateEntities (entities : List PIIEntity) : List PIIEntity :=
  match entities with
  | [] => []
  | _ =>
    match sortBy leStart entities with
    | [] => []
    | x :: rest => dedupLoop x rest

/-! ### Verification-layer definitions -/

/-- A placeholder-shaped token: `'<'`, a body free of angle brackets,
    then `'>'`. -/
def IsTok (k : Str) : Prop :=
  ∃ w, k = '<' :: w ++ ['>'] ∧ '<' ∉ w ∧ '>' ∉ w

/-- The placeholder tokens of a context, in insertion order. -/
def keyList (ctx : MaskingContext) : List Str := ctx.mapping.map Prod.fst

/-- The string `unmask` substitutes for one placeholder. -/
def replOf (ctx : MaskingContext) (config : MaskingConfig) (ph : Str) : Str :=
  if config.show_markers then config.marker_text ++ (alookup ctx.mapping ph).getD []
  else (alookup ctx.mapping ph).getD []

/-- A piece of a decomposed text: either free of `'<'`, or exactly one of
    the context's placeholder tokens. -/
def GoodPiece (ctx : MaskingContext) (p : Str) : Prop :=
  '<' ∉ p ∨ p ∈ keyList ctx

/-- All pieces good. -/
def GoodPieces (ctx : MaskingContext) (ps : List Str) : Prop :=
  ∀ p ∈ ps, GoodPiece ctx p

/-- A text that splits into good pieces: every `'<'` in it starts an
    occurrence of one of the context's placeholder tokens. -/
def GoodText (ctx : MaskingContext) (t : Str) : Prop :=
  ∃ ps, GoodPieces ctx ps ∧ ps.flatten = t

/-- What a single piece becomes after `unmask` has processed every
    placeholder. -/
def resolvePiece (ctx : MaskingContext) (config : MaskingConfig) (p : Str) : Str :=
  if p ∈ keyList ctx then replOf ctx config p else p

/-- Well-formedness of a context/config pair for streaming: placeholder
    keys are tokens without inner brackets, keys are not repeated, and
    neither stored values nor the marker text contain `'<'`. -/
def WFCtx (ctx : MaskingContext) (config : MaskingConfig) : Prop :=
  (∀ kv ∈ ctx.mapping, IsTok kv.1 ∧ '<' ∉ kv.2) ∧
    (keyList ctx).Nodup ∧ '<' ∉ config.marker_text

/-- A string in which every `'<'` is eventually answered by a `'>'`:
    the emitted part of a stream step always has this shape. -/
def SafeChunk (X : Str) : Prop := ∀ U V, X = U ++ '<' :: V → '>' ∈ V

/-- The interleaving `T[prev..s₁) ++ ph₁ ++ T[e₁..s₂) ++ … ++ T[eₙ..)`:
    the shape of a masked text for disjoint ascending spans. -/
def interleave (T : Str) (prev : Nat) : List (Nat × Nat × Str) → Str
  | [] => T.drop prev
  | (s, e, ph) :: rest => (T.take s).drop prev ++ ph ++ interleave T e rest

/-- The same interleaving as an explicit piece list. -/
def interPieces (T : Str) (prev : Nat) : List (Nat × Nat × Str) → List Str
  | [] => [T.drop prev]
  | (s, e, ph) :: rest => (T.take s).drop prev :: ph :: interPieces T e rest

/-- The context after a sequence of `mask` calls sharing one context. -/
def runMasksCtx (calls : List (Str × List PIIEntity)) (c : MaskingContext) :
    MaskingContext :=
  calls.foldl (fun c call => (mask call.1 call.2 c).context) c

/-- The (original value, placeholder) assignments made by one `mask` call. -/
def callPairs (call : Str × List PIIEntity) (c : MaskingContext) :
    List (Str × Str) :=
  (maskAssign call.1 (sortBy leStart call.2) c).2.map fun ep =>
    (sliceL call.1 ep.1.start ep.1.endPos, ep.2)

/-- All (original value, placeholder) assignments made across a sequence of
    `mask` calls sharing one context. -/
def runMasksPairs (calls : List (Str × List PIIEntity)) (c : MaskingContext) :
    List (Str × Str) :=
  (calls.foldl
    (fun (st : MaskingContext × List (Str × Str)) call =>
      ((mask call.1 call.2 st.1).context, st.2 ++ callPairs call st.1))
    (c, [])).2

/-- Well-formedness of a context reachable from `createMaskingContext` by
    `mask` calls: the reverse mapping is exactly the swapped mapping, keys
    and values are unrepeated, and every key is a generated placeholder
    whose sequence number is within its type's counter. -/
def CtxInv (c : MaskingContext) : Prop :=
  c.reverseMapping = c.mapping.map (fun kv => (kv.2, kv.1)) ∧
    (c.mapping.map Prod.fst).Nodup ∧
    (c.mapping.map Prod.snd).Nodup ∧
    ∀ kv ∈ c.mapping, ∃ t m, kv.1 = mkPlaceholder t m ∧ SafeType t ∧ 1 ≤ m ∧
      m ≤ (nlookup c.counters t).getD 0

/-! ## Lemmas: stable sorting -/

universe u
variable {α : Type u}

theorem orderedIns_perm (le : α → α → Bool) (a : α) (l : List α) :
    List.Perm (orderedIns le a l) (a :: l) := by
  induction l with
  | nil => exact List.Perm.refl _
  | cons b t ih =>
    simp only [orderedIns]
    split
    · exact List.Perm.refl _
    · exact (ih.cons b).trans (List.Perm.swap a b t)

theorem sortBy_perm (le : α → α → Bool) (l : List α) :
    List.Perm (sortBy le l) l := by
  induction l with
  | nil => exact List.Perm.refl _
  | cons a t ih => exact (orderedIns_perm le a (sortBy le t)).trans (ih.cons a)

theorem mem_sortBy {le : α → α → Bool} {l : List α} {x : α} :
    x ∈ sortBy le l ↔ x ∈ l := (sortBy_perm le l).mem_iff

theorem length_sortBy (le : α → α → Bool) (l : List α) :
    (sortBy le l).length = l.length := (sortBy_perm le l).length_eq

theorem pairwise_orderedIns {le : α → α → Bool}
    (total : ∀ a b, le a b = true ∨ le b a = true)
    (htrans : ∀ a b c, le a b = true → le b c = true → le a c = true)
    (a : α) {l : List α}
    (h : l.Pairwise (fun x y => le x y = true)) :
    (orderedIns le a l).Pairwise (fun x y => le x y = true) := by
  induction l with
  | nil => simp [orderedIns]
  | cons b t ih =>
    obtain ⟨hb, ht⟩ := List.pairwise_cons.mp h
    simp only [orderedIns]
    split
    · rename_i hab
      refine List.Pairwise.cons ?_ (List.Pairwise.cons hb ht)
      intro x hx
      rcases List.mem_cons.mp hx with rfl | hx
      · exact hab
      · exact htrans a b x hab (hb x hx)
    · rename_i hab
      have hba : le b a = true := (total a b).resolve_left (by simpa using hab)
      refine List.Pairwise.cons ?_ (ih ht)
      intro x hx
      rcases List.mem_cons.mp ((orderedIns_perm le a t).mem_iff.mp hx) with rfl | hx
      · exact hba
      · exact hb x hx

theorem sortBy_pairwise {le : α → α → Bool}
    (total : ∀ a b, le a b = true ∨ le b a = true)
    (htrans : ∀ a b c, le a b = true → le b c = true → le a c = true)
    (l : List α) :
    (sortBy le l).Pairwise (fun x y => le x y = true) := by
  induction l with
  | nil => simp [sortBy]
  | cons a t ih => exact pairwise_orderedIns total htrans a ih

theorem sortBy_eq_self {le : α → α → Bool} {l : List α}
    (h : l.Pairwise (fun x y => le x y = true)) : sortBy le l = l := by
  induction l with
  | nil => rfl
  | cons a t ih =>
    obtain ⟨ha, ht⟩ := List.pairwise_cons.mp h
    simp only [sortBy, ih ht]
    cases t with
    | nil => rfl
    | cons b u =>
      simp only [orderedIns, if_pos (ha b (List.mem_cons_self b u))]

/-- Two permuted lists that are both strictly pairwise-ordered by an
    asymmetric relation are equal (uniqueness of the stable sort). -/
theorem perm_pairwise_eq {r : α → α → Prop}
    (hasym : ∀ a b, r a b → ¬ r b a) {l₁ l₂ : List α}
    (p : List.Perm l₁ l₂) (h₁ : l₁.Pairwise r) (h₂ : l₂.Pairwise r) :
    l₁ = l₂ :=
  List.Perm.eq_of_sorted
    (fun a b _ _ hab hba => absurd hba (hasym a b hab)) h₁ h₂ p

/-! ## Lemmas: score-agnostic resolver (C7) -/

theorem specFold_sweep (rest : List PIIEntity) :
    ∀ (done : List PIIEntity) (last : PIIEntity),
      rest.foldl
        (fun acc current =>
          match acc.getLast? with
          | none => [current]
          | some l => if l.endPos ≤ current.start then acc ++ [current] else acc)
        (done ++ [last]) = done ++ sweepKeep last rest := by
  induction rest with
  | nil => intro done last; simp [sweepKeep]
  | cons cur rest ih =>
    intro done last
    simp only [List.foldl_cons, List.getLast?_concat]
    by_cases h : last.endPos ≤ cur.start
    · rw [if_pos h]
      have := ih (done ++ [last]) cur
      simp only [List.append_assoc, List.singleton_append] at this ⊢
      rw [this, sweepKeep, if_pos h]
    · rw [if_neg h, ih done last, sweepKeep, if_neg h]

/-! ## Lemmas: chunker (C9) -/

theorem chunkLoop_unfold (text : Str) (start : Nat) (h : start < text.length) :
    chunkLoop text start =
      (sliceL text start (min (start + CHUNK_SIZE) text.length), start) ::
        (if min (start + CHUNK_SIZE) text.length = text.length then []
         else chunkLoop text (start + (CHUNK_SIZE - CHUNK_OVERLAP))) := by
  rw [chunkLoop]
  simp [h]

theorem chunkLoop_nil (text : Str) (start : Nat) (h : ¬ start < text.length) :
    chunkLoop text start = [] := by
  rw [chunkLoop]
  simp [h]

theorem sliceL_length (t : Str) (s e : Nat) :
    (sliceL t s e).length = min (e - s) (t.length - s) := by
  simp [sliceL]

theorem chunkLoop_starts (text : Str) :
    ∀ (fuel start : Nat), text.length - start ≤ fuel →
      ∀ i c, (chunkLoop text start).get? i = some c →
        c.2 = start + i * (CHUNK_SIZE - CHUNK_OVERLAP) := by
  intro fuel
  induction fuel with
  | zero =>
    intro start hf i c hc
    rw [chunkLoop_nil text start (by omega)] at hc
    simp at hc
  | succ n ih =>
    intro start hf i c hc
    by_cases h : start < text.length
    · rw [chunkLoop_unfold text start h] at hc
      cases i with
      | zero =>
        simp only [List.get?_cons_zero, Option.some.injEq] at hc
        rw [← hc]
        simp
      | succ j =>
        simp only [List.get?_cons_succ] at hc
        by_cases he : min (start + CHUNK_SIZE) text.length = text.length
        · rw [if_pos he] at hc
          simp at hc
        · rw [if_neg he] at hc
          have := ih (start + (CHUNK_SIZE - CHUNK_OVERLAP))
            (by simp only [CHUNK_SIZE, CHUNK_OVERLAP] at *; omega) j c hc
          rw [this]
          ring
    · rw [chunkLoop_nil text start h] at hc
      simp at hc

theorem chunkLoop_members (text : Str) :
    ∀ (fuel start : Nat), text.length - start ≤ fuel →
      ∀ c ∈ chunkLoop text start,
        c.1 = sliceL text c.2 (min (c.2 + CHUNK_SIZE) text.length) := by
  intro fuel
  induction fuel with
  | zero =>
    intro start hf c hc
    rw [chunkLoop_nil text start (by omega)] at hc
    exact absurd hc (by simp)
  | succ n ih =>
    intro start hf c hc
    by_cases h : start < text.length
    · rw [chunkLoop_unfold text start h] at hc
      rcases List.mem_cons.mp hc with rfl | hc
      · rfl
      · by_cases he : min (start + CHUNK_SIZE) text.length = text.length
        · rw [if_pos he] at hc
          exact absurd hc (by simp)
        · rw [if_neg he] at hc
          exact ih (start + (CHUNK_SIZE - CHUNK_OVERLAP))
            (by simp only [CHUNK_SIZE, CHUNK_OVERLAP] at *; omega) c hc
    · rw [chunkLoop_nil text start h] at hc
      exact absurd hc (by simp)

theorem getLast?_cons_of_ne_nil {β : Type u} {a : β} {l : List β}
    (h : l ≠ []) : (a :: l).getLast? = l.getLast? := by
  cases l with
  | nil => exact absurd rfl h
  | cons b t => simp [List.getLast?_cons_cons]

theorem chunkLoop_last (text : Str) :
    ∀ (fuel start : Nat), text.length - start ≤ fuel → start < text.length →
      ∃ c, (chunkLoop text start).getLast? = some c ∧
        c.2 + c.1.length = text.length := by
  intro fuel
  induction fuel with
  | zero => intro start hf h; omega
  | succ n ih =>
    intro start hf h
    rw [chunkLoop_unfold text start h]
    by_cases he : min (start + CHUNK_SIZE) text.length = text.length
    · rw [if_pos he]
      refine ⟨_, rfl, ?_⟩
      show start + (sliceL text start (min (start + CHUNK_SIZE) text.length)).length
          = text.length
      rw [sliceL_length]
      omega
    · rw [if_neg he]
      have hlt : start + CHUNK_SIZE < text.length := by
        simp only [CHUNK_SIZE] at *; omega
      obtain ⟨c, hc1, hc2⟩ := ih (start + (CHUNK_SIZE - CHUNK_OVERLAP))
        (by simp only [CHUNK_SIZE, CHUNK_OVERLAP] at *; omega)
        (by simp only [CHUNK_SIZE, CHUNK_OVERLAP] at *; omega)
      refine ⟨c, ?_, hc2⟩
      cases hnil : chunkLoop text (start + (CHUNK_SIZE - CHUNK_OVERLAP)) with
      | nil => rw [hnil] at hc1; simp at hc1
      | cons d l =>
        rw [hnil] at hc1
        rw [getLast?_cons_of_ne_nil (by simp)]
        exact hc1

theorem chunkLoop_cover (text : Str) :
    ∀ (fuel start : Nat), text.length - start ≤ fuel →
      ∀ p, start ≤ p → p < text.length →
        ∃ c ∈ chunkLoop text start, c.2 ≤ p ∧ p < c.2 + c.1.length := by
  intro fuel
  induction fuel with
  | zero => intro start hf p hp1 hp2; omega
  | succ n ih =>
    intro start hf p hp1 hp2
    have h : start < text.length := by omega
    rw [chunkLoop_unfold text start h]
    by_cases hcov : p < min (start + CHUNK_SIZE) text.length
    · refine ⟨_, List.mem_cons_self _ _, hp1, ?_⟩
      simp only [sliceL_length]
      omega
    · have he : ¬ min (start + CHUNK_SIZE) text.length = text.length := by omega
      rw [if_neg he]
      have hlt : start + CHUNK_SIZE < text.length := by
        simp only [CHUNK_SIZE] at *; omega
      obtain ⟨c, hc1, hc2, hc3⟩ := ih (start + (CHUNK_SIZE - CHUNK_OVERLAP))
        (by simp only [CHUNK_SIZE, CHUNK_OVERLAP] at *; omega) p
        (by simp only [CHUNK_SIZE, CHUNK_OVERLAP] at *; omega) hp2
      exact ⟨c, List.mem_cons_of_mem _ hc1, hc2, hc3⟩

/-! ## Lemmas: lastIndexOf (C10, C2) -/

theorem lastIndexOfLT_none {l : Str} (h : lastIndexOfLT l = none) : '<' ∉ l := by
  induction l with
  | nil => simp
  | cons c rest ih =>
    simp only [lastIndexOfLT] at h
    cases hr : lastIndexOfLT rest with
    | some j => rw [hr] at h; exact absurd h (by simp)
    | none =>
      rw [hr] at h
      by_cases hc : c = '<'
      · rw [if_pos hc] at h; exact absurd h (by simp)
      · rw [if_neg hc] at h
        intro hm
        rcases List.mem_cons.mp hm with h' | h'
        · exact hc h'.symm
        · exact ih hr h'

theorem lastIndexOfLT_some {l : Str} {i : Nat} (h : lastIndexOfLT l = some i) :
    i < l.length ∧ l.drop i = '<' :: l.drop (i + 1) ∧ '<' ∉ l.drop (i + 1) := by
  induction l generalizing i with
  | nil => simp [lastIndexOfLT] at h
  | cons c rest ih =>
    simp only [lastIndexOfLT] at h
    cases hr : lastIndexOfLT rest with
    | some j =>
      rw [hr] at h
      simp only [Option.some.injEq] at h
      subst h
      obtain ⟨h1, h2, h3⟩ := ih hr
      refine ⟨by simpa using Nat.succ_lt_succ h1, ?_, ?_⟩
      · simpa using h2
      · simpa using h3
    | none =>
      rw [hr] at h
      by_cases hc : c = '<'
      · rw [if_pos hc] at h
        simp only [Option.some.injEq] at h
        subst h hc
        exact ⟨by simp, by simp, lastIndexOfLT_none hr⟩
      · rw [if_neg hc] at h
        exact absurd h (by simp)

/-! ## Claim theorems (first group) -/

/-- Claim C7: `resolveOverlaps` coincides with the spec's greedy sweep
    (sort by start ascending then length descending, keep a span exactly
    when its start is at or after the end of the last kept span); in
    particular on the spans `[0,10)` and `[5,15)` it keeps only `[0,10)`. -/
theorem claim_C7 :
    (∀ l : List PIIEntity, resolveOverlaps l = specResolveOverlaps l) ∧
      resolveOverlaps [⟨[], 0, 10, 0⟩, ⟨[], 5, 15, 0⟩] = [⟨[], 0, 10, 0⟩] := by
  constructor
  · intro l
    match l with
    | [] => rfl
    | [x] => rfl
    | x :: y :: t =>
      have hlen : ¬ (x :: y :: t).length ≤ 1 := by simp
      rw [resolveOverlaps, if_neg hlen, specResolveOverlaps]
      cases hs : sortBy soLE (x :: y :: t) with
      | nil =>
        have := length_sortBy soLE (x :: y :: t)
        rw [hs] at this
        simp at this
      | cons s srest =>
        have h0 := specFold_sweep srest [] s
        simp only [List.nil_append] at h0
        rw [List.foldl_cons]
        exact h0.symm
  · rfl

/-- Claim C9: for text longer than `CHUNK_SIZE`, the chunker's windows
    start at `0, (W-O), 2(W-O), …`, each window is the slice
    `[start, min(start+W, length))`, the final window ends exactly at the
    text's length, and every character is covered by some window. -/
theorem claim_C9 (text : Str) (h : CHUNK_SIZE < text.length) :
    (∀ i c, (chunkText text).get? i = some c →
        c.2 = i * (CHUNK_SIZE - CHUNK_OVERLAP)) ∧
      (∀ c ∈ chunkText text,
        c.1 = sliceL text c.2 (min (c.2 + CHUNK_SIZE) text.length)) ∧
      (∃ c, (chunkText text).getLast? = some c ∧
        c.2 + c.1.length = text.length) ∧
      (∀ p, p < text.length →
        ∃ c ∈ chunkText text, c.2 ≤ p ∧ p < c.2 + c.1.length) := by
  have hpos : 0 < text.length := by simp only [CHUNK_SIZE] at h; omega
  refine ⟨?_, ?_, ?_, ?_⟩
  · intro i c hc
    simpa using chunkLoop_starts text text.length 0 (by omega) i c hc
  · intro c hc
    exact chunkLoop_members text text.length 0 (by omega) c hc
  · exact chunkLoop_last text text.length 0 (by omega) hpos
  · intro p hp
    exact chunkLoop_cover text text.length 0 (by omega) p (Nat.zero_le p) hp

/-- Witness for C9 at a concrete text of length 4001. -/
theorem claim_C9_witness :
    ∃ c, (chunkText (List.replicate 4001 'a')).getLast? = some c ∧
      c.2 + c.1.length = (List.replicate 4001 'a').length :=
  (claim_C9 (List.replicate 4001 'a')
    (by rw [List.length_replicate]; norm_num [CHUNK_SIZE])).2.2.1

/-- Claim C10: each `unmaskStreamChunk` call splits `buffer ++ chunk` into a
    prefix that is unmasked and emitted and a remaining buffer that is empty
    or starts with `'<'` and contains no `'>'`. -/
theorem claim_C10 (buffer newChunk : Str) (ctx : MaskingContext)
    (config : MaskingConfig) :
    ∃ p, buffer ++ newChunk = p ++ (unmaskStreamChunk buffer newChunk ctx config).2 ∧
      (unmaskStreamChunk buffer newChunk ctx config).1 = unmask p ctx config ∧
      ((unmaskStreamChunk buffer newChunk ctx config).2 = [] ∨
        ((unmaskStreamChunk buffer newChunk ctx config).2.head? = some '<' ∧
          '>' ∉ (unmaskStreamChunk buffer newChunk ctx config).2)) := by
  cases hidx : lastIndexOfLT (buffer ++ newChunk) with
  | none =>
    have hval : unmaskStreamChunk buffer newChunk ctx config =
        (unmask (buffer ++ newChunk) ctx config, []) := by
      simp only [unmaskStreamChunk, hidx]
    rw [hval]
    exact ⟨buffer ++ newChunk, by simp, rfl, Or.inl rfl⟩
  | some i =>
    obtain ⟨h1, h2, h3⟩ := lastIndexOfLT_some hidx
    by_cases hgt : '>' ∈ (buffer ++ newChunk).drop i
    · have hval : unmaskStreamChunk buffer newChunk ctx config =
          (unmask (buffer ++ newChunk) ctx config, []) := by
        simp only [unmaskStreamChunk, hidx, if_pos hgt]
      rw [hval]
      exact ⟨buffer ++ newChunk, by simp, rfl, Or.inl rfl⟩
    · have hval : unmaskStreamChunk buffer newChunk ctx config =
          (unmask ((buffer ++ newChunk).take i) ctx config,
            (buffer ++ newChunk).drop i) := by
        simp only [unmaskStreamChunk, hidx, if_neg hgt]
      rw [hval]
      refine ⟨(buffer ++ newChunk).take i, by simp, rfl, Or.inr ⟨?_, hgt⟩⟩
      rw [h2]
      rfl

/-! ## Claim theorems: counterexamples and code-bug evaluations -/

/-- Claim C3 counterexample: on two overlapping spans of different types
    with neither contained in the other, `resolveConflicts` keeps both, so
    its output is not pairwise non-overlapping. -/
theorem claim_C3_counterexample :
    ¬ (resolveConflicts
          [⟨strL "A", 0, 10, 1⟩, ⟨strL "B", 5, 15, 1⟩]).Pairwise
        (fun a b => ¬ overlaps a b) := by
  intro h
  have : resolveConflicts [⟨strL "A", 0, 10, 1⟩, ⟨strL "B", 5, 15, 1⟩] =
      [⟨strL "A", 0, 10, 1⟩, ⟨strL "B", 5, 15, 1⟩] := by decide
  rw [this] at h
  obtain ⟨hrel, -⟩ := List.pairwise_cons.mp h
  exact hrel _ (List.mem_cons_self _ _) (by constructor <;> decide)

/-- Claim C5 counterexample: with a zero-width span present, applying
    `resolveConflicts` twice differs from applying it once. -/
theorem claim_C5_counterexample :
    resolveConflicts (resolveConflicts
        [⟨strL "A", 3, 5, 1⟩, ⟨strL "A", 3, 3, 1⟩, ⟨strL "A", 4, 9, 1⟩]) ≠
      resolveConflicts
        [⟨strL "A", 3, 5, 1⟩, ⟨strL "A", 3, 3, 1⟩, ⟨strL "A", 4, 9, 1⟩] := by
  decide

/-- Claim C6: `mask` never rejects malformed spans; at the failing input
    (text `"abc"`, span with `start = 2 > end = 1`) it silently returns a
    masked result built from the clamped (empty) slice. -/
theorem claim_C6 :
    (mask (strL "abc") [⟨strL "X", 2, 1, 1⟩] createMaskingContext).masked =
      strL "ab<X_1>bc" := by
  decide

/-- Claim C8 counterexample: for two consecutive overlapping same-type
    spans, the strictly longer span `[0,10)` is dropped in favour of the
    shorter, higher-scored `[2,7)` — the length rule does not take
    precedence over the score rule. -/
theorem claim_C8_counterexample :
    deduplicateEntities [⟨strL "A", 0, 10, 1⟩, ⟨strL "A", 2, 7, 2⟩] =
        [⟨strL "A", 2, 7, 2⟩] ∧
      (10 : Int) - 0 > (7 : Int) - 2 := by
  constructor
  · decide
  · decide

/-- Claim C1 counterexample: when the original text already contains the
    generated placeholder string, the mask/unmask round trip is not the
    identity (`"ab<X_1>"` with span `[0,2)` comes back as `"abab"`). -/
theorem claim_C1_counterexample :
    unmask
        (mask (strL "ab<X_1>") [⟨strL "X", 0, 2, 1⟩] createMaskingContext).masked
        (mask (strL "ab<X_1>") [⟨strL "X", 0, 2, 1⟩] createMaskingContext).context
        ⟨false, []⟩ ≠ strL "ab<X_1>" := by
  decide

/-- Claim C2 counterexample: for a context whose mapping key is not a
    placeholder-shaped token, chunked streaming differs from batch
    unmasking on the same concatenated text. -/
theorem claim_C2_counterexample :
    (streamGo [] [strL "a", strL "b"] ⟨[(strL "ab", strL "Z")], [], []⟩
          ⟨false, []⟩).1 ++
        flushStreamBuffer
          (streamGo [] [strL "a", strL "b"] ⟨[(strL "ab", strL "Z")], [], []⟩
            ⟨false, []⟩).2
          ⟨[(strL "ab", strL "Z")], [], []⟩ ⟨false, []⟩ ≠
      unmask ([strL "a", strL "b"].flatten)
        ⟨[(strL "ab", strL "Z")], [], []⟩ ⟨false, []⟩ := by
  decide

/-! ## Lemmas and amended claim for C8 (deduplication) -/

theorem dedupLoop_members :
    ∀ (rest : List PIIEntity) (cur e : PIIEntity),
      e ∈ dedupLoop cur rest → e = cur ∨ e ∈ rest := by
  intro rest
  induction rest with
  | nil =>
    intro cur e he
    simp only [dedupLoop] at he
    exact Or.inl (by simpa using he)
  | cons next rest ih =>
    intro cur e he
    simp only [dedupLoop] at he
    split at he
    · split at he
      · rcases ih next e he with rfl | h
        · exact Or.inr (List.mem_cons_self _ _)
        · exact Or.inr (List.mem_cons_of_mem _ h)
      · split at he
        · rcases ih next e he with rfl | h
          · exact Or.inr (List.mem_cons_self _ _)
          · exact Or.inr (List.mem_cons_of_mem _ h)
        · rcases ih cur e he with rfl | h
          · exact Or.inl rfl
          · exact Or.inr (List.mem_cons_of_mem _ h)
    · rcases List.mem_cons.mp he with rfl | h
      · exact Or.inl rfl
      · rcases ih next e h with rfl | h'
        · exact Or.inr (List.mem_cons_self _ _)
        · exact Or.inr (List.mem_cons_of_mem _ h')

/-- Claim C8, amended: the chunker's deduplication only keeps input spans,
    and on two consecutive same-type overlapping spans the later span
    replaces the earlier exactly when it is strictly longer **or** has a
    strictly higher score — a shorter, higher-scored span displaces a
    longer, lower-scored one. -/
theorem claim_C8_amended :
    (∀ (l : List PIIEntity) (e : PIIEntity),
        e ∈ deduplicateEntities l → e ∈ l) ∧
      ∀ a b : PIIEntity, a.start ≤ b.start → b.start < a.endPos →
        a.entity_type = b.entity_type →
        deduplicateEntities [a, b] =
          if (b.endPos : Int) - b.start > (a.endPos : Int) - a.start ∨
              a.score < b.score then [b] else [a] := by
  constructor
  · intro l e he
    match l with
    | [] =>
      simp [deduplicateEntities] at he
    | x :: t =>
      have hne : sortBy leStart (x :: t) ≠ [] := by
        intro hh
        have := length_sortBy leStart (x :: t)
        rw [hh] at this
        simp at this
      cases hs : sortBy leStart (x :: t) with
      | nil => exact absurd hs hne
      | cons s srest =>
        have hval : deduplicateEntities (x :: t) = dedupLoop s srest := by
          simp only [deduplicateEntities, hs]
        rw [hval] at he
        have hmem : e ∈ s :: srest := by
          rcases dedupLoop_members srest s e he with rfl | h
          · exact List.mem_cons_self _ _
          · exact List.mem_cons_of_mem _ h
        rw [← hs] at hmem
        exact mem_sortBy.mp hmem
  · intro a b h1 h2 h3
    have hsort : sortBy leStart [a, b] = [a, b] := by
      simp [sortBy, orderedIns, leStart, h1]
    have hval : deduplicateEntities [a, b] = dedupLoop a [b] := by
      simp only [deduplicateEntities, hsort]
    rw [hval]
    simp only [dedupLoop, if_pos (And.intro h2 h3.symm)]
    by_cases hL : (b.endPos : Int) - b.start > (a.endPos : Int) - a.start
    · rw [if_pos hL, if_pos (Or.inl hL)]
    · rw [if_neg hL]
      by_cases hS : a.score < b.score
      · rw [if_pos hS, if_pos (Or.inr hS)]
      · rw [if_neg hS, if_neg (by push_neg; exact ⟨not_lt.mp hL, not_lt.mp hS⟩)]

/-- Witness for the amended C8 at the counterexample's spans. -/
theorem claim_C8_amended_witness :
    deduplicateEntities [⟨strL "A", 0, 10, 1⟩, ⟨strL "A", 2, 7, 2⟩] =
      if ((7 : Int) - 2 > (10 : Int) - 0 ∨
          (⟨strL "A", 0, 10, 1⟩ : PIIEntity).score <
            (⟨strL "A", 2, 7, 2⟩ : PIIEntity).score) then
        [⟨strL "A", 2, 7, 2⟩] else [⟨strL "A", 0, 10, 1⟩] :=
  claim_C8_amended.2 ⟨strL "A", 0, 10, 1⟩ ⟨strL "A", 2, 7, 2⟩
    (by decide) (by decide) (by decide)

/-! ## Lemmas for C3: resolver output has no same-type overlaps -/

theorem leStart_iff {a b : PIIEntity} : leStart a b = true ↔ a.start ≤ b.start := by
  simp [leStart]

theorem leStart_total (a b : PIIEntity) : leStart a b = true ∨ leStart b a = true := by
  rw [leStart_iff, leStart_iff]
  omega

theorem leStart_trans (a b c : PIIEntity) :
    leStart a b = true → leStart b c = true → leStart a c = true := by
  rw [leStart_iff, leStart_iff, leStart_iff]
  omega

theorem sweepMerge_type (k : Str) :
    ∀ (rest : List PIIEntity) (p : PIIEntity), p.entity_type = k →
      (∀ x ∈ rest, x.entity_type = k) →
      ∀ y ∈ sweepMerge mergeEnt p rest, y.entity_type = k := by
  intro rest
  induction rest with
  | nil =>
    intro p hp _ y hy
    simp only [sweepMerge] at hy
    simpa [← List.mem_singleton.mp hy] using hp
  | cons cur rest ih =>
    intro p hp hall y hy
    simp only [sweepMerge] at hy
    split at hy
    · exact ih (mergeEnt p cur) (by simpa [mergeEnt] using hp)
        (fun x hx => hall x (List.mem_cons_of_mem _ hx)) y hy
    · rcases List.mem_cons.mp hy with rfl | hy
      · exact hp
      · exact ih cur (hall cur (List.mem_cons_self _ _))
          (fun x hx => hall x (List.mem_cons_of_mem _ hx)) y hy

theorem sweepMerge_nonoverlap :
    ∀ (rest : List PIIEntity) (p : PIIEntity),
      p.start < p.endPos →
      (∀ x ∈ rest, x.start < x.endPos) →
      (∀ x ∈ rest, p.start ≤ x.start) →
      rest.Pairwise (fun a b => a.start ≤ b.start) →
      (sweepMerge mergeEnt p rest).Pairwise
          (fun a b => a.start ≤ b.start ∧ a.endPos ≤ b.start) ∧
        ∀ y ∈ sweepMerge mergeEnt p rest,
          p.start ≤ y.start ∧ y.start < y.endPos := by
  intro rest
  induction rest with
  | nil =>
    intro p hp _ _ _
    refine ⟨List.pairwise_singleton _ _, ?_⟩
    intro y hy
    rw [List.mem_singleton.mp hy]
    exact ⟨Nat.le_refl _, hp⟩
  | cons cur rest ih =>
    intro p hp hne hstart hsorted
    obtain ⟨hcur_rest, hrest⟩ := List.pairwise_cons.mp hsorted
    have hcur_ne : cur.start < cur.endPos := hne cur (List.mem_cons_self _ _)
    have hp_cur : p.start ≤ cur.start := hstart cur (List.mem_cons_self _ _)
    simp only [sweepMerge]
    split
    · rename_i hov
      have hm_ne : (mergeEnt p cur).start < (mergeEnt p cur).endPos := by
        simp only [mergeEnt]
        omega
      have hm_start : ∀ x ∈ rest, (mergeEnt p cur).start ≤ x.start := by
        intro x hx
        have := hcur_rest x hx
        simp only [mergeEnt]
        omega
      obtain ⟨h1, h2⟩ := ih (mergeEnt p cur) hm_ne
        (fun x hx => hne x (List.mem_cons_of_mem _ hx)) hm_start hrest
      refine ⟨h1, ?_⟩
      intro y hy
      obtain ⟨hy1, hy2⟩ := h2 y hy
      have : (mergeEnt p cur).start = min p.start cur.start := rfl
      omega
    · rename_i hov
      have hpe : p.endPos ≤ cur.start := by
        simp only [overlaps, not_and, not_lt] at hov
        have : p.start < cur.endPos := by omega
        by_contra hcon
        push_neg at hcon
        have := hov (by omega)
        omega
      obtain ⟨h1, h2⟩ := ih cur hcur_ne
        (fun x hx => hne x (List.mem_cons_of_mem _ hx))
        (fun x hx => hcur_rest x hx) hrest
      refine ⟨?_, ?_⟩
      · refine List.Pairwise.cons ?_ h1
        intro y hy
        obtain ⟨hy1, hy2⟩ := h2 y hy
        exact ⟨by omega, by omega⟩
      · intro y hy
        rcases List.mem_cons.mp hy with rfl | hy
        · exact ⟨Nat.le_refl _, hp⟩
        · obtain ⟨hy1, hy2⟩ := h2 y hy
          exact ⟨by omega, hy2⟩

theorem mergeOverlapping_nonoverlap {g : List PIIEntity}
    (hne : ∀ x ∈ g, x.start < x.endPos) :
    (mergeOverlapping mergeEnt g).Pairwise (fun a b => ¬ overlaps a b) := by
  rw [mergeOverlapping]
  split
  · rename_i hlen
    match g, hlen with
    | [], _ => exact List.Pairwise.nil
    | [x], _ => exact List.pairwise_singleton _ _
  · cases hs : sortBy leStart g with
    | nil => exact List.Pairwise.nil
    | cons s srest =>
      have hmem : ∀ x ∈ s :: srest, x ∈ g := by
        intro x hx
        rw [← hs] at hx
        exact mem_sortBy.mp hx
      have hsorted : (s :: srest).Pairwise (fun a b => a.start ≤ b.start) := by
        have := sortBy_pairwise leStart_total leStart_trans g
        rw [hs] at this
        exact this.imp fun h => leStart_iff.mp h
      obtain ⟨hhead, htail⟩ := List.pairwise_cons.mp hsorted
      obtain ⟨h1, _⟩ := sweepMerge_nonoverlap srest s
        (hne s (hmem s (List.mem_cons_self _ _)))
        (fun x hx => hne x (hmem x (List.mem_cons_of_mem _ hx)))
        hhead htail
      exact h1.imp fun h => by
        intro hov
        exact absurd hov.2 (by omega)

theorem mergeOverlapping_type {g : List PIIEntity} {k : Str}
    (ht : ∀ x ∈ g, x.entity_type = k) :
    ∀ y ∈ mergeOverlapping mergeEnt g, y.entity_type = k := by
  rw [mergeOverlapping]
  split
  · exact ht
  · cases hs : sortBy leStart g with
    | nil => simp
    | cons s srest =>
      have hmem : ∀ x ∈ s :: srest, x ∈ g := by
        intro x hx
        rw [← hs] at hx
        exact mem_sortBy.mp hx
      exact sweepMerge_type k srest s (ht s (hmem s (List.mem_cons_self _ _)))
        fun x hx => ht x (hmem x (List.mem_cons_of_mem _ hx))

theorem addKey_subset {acc : List Str} {t u : Str} (h : u ∈ acc) :
    u ∈ addKey acc t := by
  rw [addKey]
  split
  · exact h
  · exact List.mem_append_left _ h

theorem mem_addKey (acc : List Str) (t : Str) : t ∈ addKey acc t := by
  rw [addKey]
  split
  · assumption
  · exact List.mem_append_right _ (List.mem_singleton.mpr rfl)

theorem addKey_nodup {acc : List Str} {t : Str} (h : acc.Nodup) :
    (addKey acc t).Nodup := by
  rw [addKey]
  split
  · exact h
  · rename_i ht
    simpa [List.nodup_append] using ⟨h, ht⟩

theorem typeKeys_fold_nodup :
    ∀ (l : List PIIEntity) (acc : List Str), acc.Nodup →
      (l.foldl (fun acc e => addKey acc e.entity_type) acc).Nodup := by
  intro l
  induction l with
  | nil => intro acc h; exact h
  | cons e l ih => intro acc h; exact ih _ (addKey_nodup h)

theorem typeKeys_nodup (l : List PIIEntity) : (typeKeys l).Nodup :=
  typeKeys_fold_nodup l [] List.nodup_nil

theorem typeKeys_fold_mono :
    ∀ (l : List PIIEntity) (acc : List Str) (u : Str), u ∈ acc →
      u ∈ l.foldl (fun acc e => addKey acc e.entity_type) acc := by
  intro l
  induction l with
  | nil => intro acc u h; exact h
  | cons e l ih => intro acc u h; exact ih _ u (addKey_subset h)

theorem typeKeys_covers :
    ∀ (l : List PIIEntity) (acc : List Str) (e : PIIEntity), e ∈ l →
      e.entity_type ∈ l.foldl (fun acc e => addKey acc e.entity_type) acc := by
  intro l
  induction l with
  | nil => intro acc e h; exact absurd h (by simp)
  | cons x l ih =>
    intro acc e h
    rcases List.mem_cons.mp h with rfl | h
    · exact typeKeys_fold_mono l _ _ (mem_addKey acc e.entity_type)
    · exact ih _ e h

theorem mem_typeKeys {l : List PIIEntity} {e : PIIEntity} (h : e ∈ l) :
    e.entity_type ∈ typeKeys l := typeKeys_covers l [] e h

/-- The `afterMerge` pool of `resolveConflicts`, for a general key list:
    any two entries either have different types or do not overlap. -/
theorem flatMap_groups_pairwise (entities : List PIIEntity)
    (hne : ∀ e ∈ entities, e.start < e.endPos) :
    ∀ keys : List Str, keys.Nodup →
      (keys.flatMap fun k =>
          mergeOverlapping mergeEnt
            (entities.filter fun e => e.entity_type = k)).Pairwise
        (fun a b => a.entity_type = b.entity_type → ¬ overlaps a b) := by
  intro keys
  induction keys with
  | nil => intro _; exact List.Pairwise.nil
  | cons k ks ih =>
    intro hnd
    obtain ⟨hk, hks⟩ := List.nodup_cons.mp hnd
    rw [List.flatMap_cons]
    rw [List.pairwise_append]
    have hfilter_type : ∀ k' (x : PIIEntity),
        x ∈ entities.filter (fun e => e.entity_type = k') → x.entity_type = k' := by
      intro k' x hx
      have := List.of_mem_filter hx
      simpa using this
    have hgroup_type : ∀ k' (y : PIIEntity),
        y ∈ mergeOverlapping mergeEnt
            (entities.filter fun e => e.entity_type = k') →
          y.entity_type = k' := by
      intro k' y hy
      exact mergeOverlapping_type (hfilter_type k') y hy
    refine ⟨?_, ih hks, ?_⟩
    · have hno := mergeOverlapping_nonoverlap
        (g := entities.filter fun e => e.entity_type = k)
        (fun x hx => hne x (List.mem_filter.mp hx).1)
      exact hno.imp fun h => fun _ => h
    · intro a ha b hb
      have hta : a.entity_type = k := hgroup_type k a ha
      have htb : b.entity_type ∈ ks := by
        obtain ⟨k', hk', hbk⟩ := List.mem_flatMap.mp hb
        rw [hgroup_type k' b hbk]
        exact hk'
      intro hab
      exact absurd (by rw [← hab, hta] at htb; exact htb) hk

theorem greedySel_sublist :
    ∀ (l acc : List PIIEntity),
      ∃ t, l.foldl
          (fun result e => if hasConflict result e then result else result ++ [e])
          acc = acc ++ t ∧ t.Sublist l := by
  intro l
  induction l with
  | nil => intro acc; exact ⟨[], by simp, List.Sublist.refl _⟩
  | cons e l ih =>
    intro acc
    rw [List.foldl_cons]
    by_cases h : hasConflict acc e
    · rw [if_pos h]
      obtain ⟨t, ht1, ht2⟩ := ih acc
      exact ⟨t, ht1, ht2.cons e⟩
    · rw [if_neg h]
      obtain ⟨t, ht1, ht2⟩ := ih (acc ++ [e])
      refine ⟨e :: t, ?_, ht2.cons₂ e⟩
      rw [ht1, List.append_assoc]
      rfl

theorem pairwise_of_len_le_one {P : PIIEntity → PIIEntity → Prop}
    {l : List PIIEntity} (h : l.length ≤ 1) : l.Pairwise P := by
  match l, h with
  | [], _ => exact List.Pairwise.nil
  | [x], _ => exact List.pairwise_singleton _ _

theorem removeConflicting_pairwise {P : PIIEntity → PIIEntity → Prop}
    (hsymm : ∀ {a b}, P a b → P b a) {l : List PIIEntity}
    (h : l.Pairwise P) : (removeConflicting l).Pairwise P := by
  rw [removeConflicting]
  split
  · exact h
  · obtain ⟨t, ht1, ht2⟩ := greedySel_sublist (sortBy rcLE l) []
    rw [ht1, List.nil_append]
    exact List.Pairwise.sublist ht2 ((sortBy_perm rcLE l).symm.pairwise h fun h' => hsymm h')

theorem resolveConflicts_same_type (entities : List PIIEntity)
    (hne : ∀ e ∈ entities, e.start < e.endPos) :
    (resolveConflicts entities).Pairwise
      (fun a b => a.entity_type = b.entity_type → ¬ overlaps a b) := by
  rw [resolveConflicts]
  split
  · exact pairwise_of_len_le_one (by assumption)
  · refine removeConflicting_pairwise ?_ ?_
    · intro a b h ht hov
      exact h ht.symm ⟨hov.2, hov.1⟩
    · exact flatMap_groups_pairwise entities hne (typeKeys entities)
        (typeKeys_nodup entities)

/-- Claim C3, amended: for spans with `start < end`, no two distinct spans
    of the **same type** in `resolveConflicts`' output overlap (overlapping
    spans of different types can both survive, as the counterexample
    shows). -/
theorem claim_C3_amended (entities : List PIIEntity)
    (hne : ∀ e ∈ entities, e.start < e.endPos) :
    (resolveConflicts entities).Pairwise
      (fun a b => a.entity_type = b.entity_type → ¬ overlaps a b) :=
  resolveConflicts_same_type entities hne

/-- Witness for the amended C3 at the counterexample's spans. -/
theorem claim_C3_amended_witness :
    (resolveConflicts [⟨strL "A", 0, 10, 1⟩, ⟨strL "B", 5, 15, 1⟩]).Pairwise
      (fun a b => a.entity_type = b.entity_type → ¬ overlaps a b) :=
  claim_C3_amended [⟨strL "A", 0, 10, 1⟩, ⟨strL "B", 5, 15, 1⟩] (by decide)

/-! ## Lemmas for C5: resolver idempotence on well-formed spans -/

theorem rcLE_iff {a b : PIIEntity} :
    rcLE a b = true ↔
      (a.start < b.start ∨
        (a.start = b.start ∧
          (a.endPos < b.endPos ∨
            (a.endPos = b.endPos ∧ b.score ≤ a.score)))) := by
  rw [rcLE]
  split_ifs with h1 h2
  · simp only [decide_eq_true_eq]
    constructor
    · intro h; exact Or.inl (by omega)
    · intro h
      rcases h with h | ⟨h, -⟩
      · omega
      · omega
  · simp only [decide_eq_true_eq]
    constructor
    · intro h
      exact Or.inr ⟨by omega, Or.inl (by omega)⟩
    · intro h
      rcases h with h | ⟨-, h | ⟨h, -⟩⟩
      · omega
      · omega
      · omega
  · simp only [decide_eq_true_eq]
    push_neg at h1 h2
    constructor
    · intro h
      exact Or.inr ⟨h1, Or.inr ⟨h2, h⟩⟩
    · intro h
      rcases h with h | ⟨-, h | ⟨-, h⟩⟩
      · omega
      · omega
      · exact h

theorem rcLE_total (a b : PIIEntity) : rcLE a b = true ∨ rcLE b a = true := by
  rw [rcLE_iff, rcLE_iff]
  rcases Nat.lt_trichotomy a.start b.start with h | h | h
  · exact Or.inl (Or.inl h)
  · rcases Nat.lt_trichotomy a.endPos b.endPos with h' | h' | h'
    · exact Or.inl (Or.inr ⟨h, Or.inl h'⟩)
    · rcases le_total b.score a.score with hs | hs
      · exact Or.inl (Or.inr ⟨h, Or.inr ⟨h', hs⟩⟩)
      · exact Or.inr (Or.inr ⟨h.symm, Or.inr ⟨h'.symm, hs⟩⟩)
    · exact Or.inr (Or.inr ⟨h.symm, Or.inl h'⟩)
  · exact Or.inr (Or.inl h)

theorem rcLE_trans (a b c : PIIEntity) :
    rcLE a b = true → rcLE b c = true → rcLE a c = true := by
  rw [rcLE_iff, rcLE_iff, rcLE_iff]
  intro hab hbc
  rcases hab with h | ⟨h1, h⟩
  · rcases hbc with h' | ⟨h1', -⟩
    · exact Or.inl (by omega)
    · exact Or.inl (by omega)
  · rcases hbc with h' | ⟨h1', h'⟩
    · exact Or.inl (by omega)
    · refine Or.inr ⟨by omega, ?_⟩
      rcases h with h | ⟨h2, hs⟩
      · rcases h' with h' | ⟨h2', -⟩
        · exact Or.inl (by omega)
        · exact Or.inl (by omega)
      · rcases h' with h' | ⟨h2', hs'⟩
        · exact Or.inl (by omega)
        · exact Or.inr ⟨by omega, le_trans hs' hs⟩

theorem hasConflict_eq_false {acc : List PIIEntity} {b : PIIEntity} :
    hasConflict acc b = false ↔
      ∀ kept ∈ acc,
        ¬ ((b.start = kept.start ∧ b.endPos = kept.endPos) ∨
            isContainedIn b kept) := by
  simp [hasConflict]

theorem greedySel_pairwise :
    ∀ (l acc : List PIIEntity),
      acc.Pairwise (fun a b =>
        ¬ ((b.start = a.start ∧ b.endPos = a.endPos) ∨ isContainedIn b a)) →
      (l.foldl
          (fun result e => if hasConflict result e then result else result ++ [e])
          acc).Pairwise (fun a b =>
        ¬ ((b.start = a.start ∧ b.endPos = a.endPos) ∨ isContainedIn b a)) := by
  intro l
  induction l with
  | nil => intro acc h; exact h
  | cons e l ih =>
    intro acc h
    rw [List.foldl_cons]
    by_cases hc : hasConflict acc e
    · rw [if_pos hc]; exact ih acc h
    · rw [if_neg hc]
      refine ih (acc ++ [e]) ?_
      rw [List.pairwise_append]
      refine ⟨h, List.pairwise_singleton _ _, ?_⟩
      intro a ha y hy
      rw [List.mem_singleton.mp hy]
      exact hasConflict_eq_false.mp (Bool.of_not_eq_true hc) a ha

theorem greedySel_keeps_all :
    ∀ (l acc : List PIIEntity),
      (∀ b ∈ l, ∀ a ∈ acc,
        ¬ ((b.start = a.start ∧ b.endPos = a.endPos) ∨ isContainedIn b a)) →
      l.Pairwise (fun a b =>
        ¬ ((b.start = a.start ∧ b.endPos = a.endPos) ∨ isContainedIn b a)) →
      l.foldl
          (fun result e => if hasConflict result e then result else result ++ [e])
          acc = acc ++ l := by
  intro l
  induction l with
  | nil => intro acc _ _; simp
  | cons e l ih =>
    intro acc hcross hpair
    obtain ⟨hhead, htail⟩ := List.pairwise_cons.mp hpair
    rw [List.foldl_cons, if_neg (by
      rw [Bool.not_eq_true, hasConflict_eq_false]
      exact hcross e (List.mem_cons_self _ _))]
    rw [ih (acc ++ [e]) ?_ htail]
    · simp
    · intro b hb a ha
      rcases List.mem_append.mp ha with ha | ha
      · exact hcross b (List.mem_cons_of_mem _ hb) a ha
      · rw [List.mem_singleton.mp ha]
        exact hhead b hb

theorem removeConflicting_sorted (l : List PIIEntity) :
    (removeConflicting l).Pairwise (fun a b => rcLE a b = true) := by
  rw [removeConflicting]
  split
  · exact pairwise_of_len_le_one (by assumption)
  · obtain ⟨t, ht1, ht2⟩ := greedySel_sublist (sortBy rcLE l) []
    rw [ht1, List.nil_append]
    exact List.Pairwise.sublist ht2 (sortBy_pairwise rcLE_total rcLE_trans l)

theorem removeConflicting_pairwiseQ (l : List PIIEntity) :
    (removeConflicting l).Pairwise (fun a b =>
      ¬ ((b.start = a.start ∧ b.endPos = a.endPos) ∨ isContainedIn b a)) := by
  rw [removeConflicting]
  split
  · exact pairwise_of_len_le_one (by assumption)
  · exact greedySel_pairwise (sortBy rcLE l) [] List.Pairwise.nil

theorem removeConflicting_members {l : List PIIEntity} :
    ∀ e ∈ removeConflicting l, e ∈ l := by
  rw [removeConflicting]
  split
  · exact fun e he => he
  · intro e he
    obtain ⟨t, ht1, ht2⟩ := greedySel_sublist (sortBy rcLE l) []
    rw [ht1, List.nil_append] at he
    exact mem_sortBy.mp (ht2.subset he)

theorem mergeOverlapping_ne {g : List PIIEntity}
    (hne : ∀ x ∈ g, x.start < x.endPos) :
    ∀ y ∈ mergeOverlapping mergeEnt g, y.start < y.endPos := by
  rw [mergeOverlapping]
  split
  · exact hne
  · cases hs : sortBy leStart g with
    | nil => simp
    | cons s srest =>
      have hmem : ∀ x ∈ s :: srest, x ∈ g := by
        intro x hx
        rw [← hs] at hx
        exact mem_sortBy.mp hx
      have hsorted : (s :: srest).Pairwise (fun a b => a.start ≤ b.start) := by
        have := sortBy_pairwise leStart_total leStart_trans g
        rw [hs] at this
        exact this.imp fun h => leStart_iff.mp h
      obtain ⟨hhead, htail⟩ := List.pairwise_cons.mp hsorted
      obtain ⟨-, h2⟩ := sweepMerge_nonoverlap srest s
        (hne s (hmem s (List.mem_cons_self _ _)))
        (fun x hx => hne x (hmem x (List.mem_cons_of_mem _ hx)))
        hhead htail
      exact fun y hy => (h2 y hy).2

theorem resolveConflicts_ne {S : List PIIEntity}
    (hne : ∀ e ∈ S, e.start < e.endPos) :
    ∀ e ∈ resolveConflicts S, e.start < e.endPos := by
  rw [resolveConflicts]
  split
  · exact hne
  · intro e he
    have he2 := removeConflicting_members e he
    obtain ⟨k, hk, hek⟩ := List.mem_flatMap.mp he2
    exact mergeOverlapping_ne
      (fun x hx => hne x (List.mem_filter.mp hx).1) e hek

theorem resolveConflicts_sorted (S : List PIIEntity) (h : ¬ S.length ≤ 1) :
    (resolveConflicts S).Pairwise (fun a b => rcLE a b = true) := by
  rw [resolveConflicts, if_neg h]
  exact removeConflicting_sorted _

theorem resolveConflicts_pairwiseQ (S : List PIIEntity) (h : ¬ S.length ≤ 1) :
    (resolveConflicts S).Pairwise (fun a b =>
      ¬ ((b.start = a.start ∧ b.endPos = a.endPos) ∨ isContainedIn b a)) := by
  rw [resolveConflicts, if_neg h]
  exact removeConflicting_pairwiseQ _

theorem sweep_noop :
    ∀ (rest : List PIIEntity) (p : PIIEntity),
      (p :: rest).Pairwise (fun a b => ¬ overlaps b a) →
      sweepMerge mergeEnt p rest = p :: rest := by
  intro rest
  induction rest with
  | nil => intro p _; rfl
  | cons cur rest ih =>
    intro p hpair
    obtain ⟨hhead, htail⟩ := List.pairwise_cons.mp hpair
    rw [sweepMerge, if_neg (hhead cur (List.mem_cons_self _ _)),
      ih cur htail]

theorem mergeOverlapping_noop {g : List PIIEntity}
    (hsorted : g.Pairwise (fun a b => leStart a b = true))
    (hno : g.Pairwise (fun a b => ¬ overlaps b a)) :
    mergeOverlapping mergeEnt g = g := by
  rw [mergeOverlapping]
  split
  · rfl
  · rw [sortBy_eq_self hsorted]
    cases g with
    | nil => rfl
    | cons s srest => exact sweep_noop srest s hno

theorem flatMap_congr_mem {f g : Str → List PIIEntity} :
    ∀ ks : List Str, (∀ k ∈ ks, f k = g k) → ks.flatMap f = ks.flatMap g := by
  intro ks
  induction ks with
  | nil => intro _; rfl
  | cons k ks ih =>
    intro h
    rw [List.flatMap_cons, List.flatMap_cons, h k (List.mem_cons_self _ _),
      ih fun k' hk' => h k' (List.mem_cons_of_mem _ hk')]

theorem filter_split_perm (l : List PIIEntity) (k : Str) :
    List.Perm
      ((l.filter fun e => e.entity_type = k) ++
        (l.filter fun e => ¬ (e.entity_type = k))) l := by
  induction l with
  | nil => simp
  | cons e t ih =>
    by_cases h : e.entity_type = k
    · rw [List.filter_cons_of_pos (by simpa using h),
        List.filter_cons_of_neg (by simpa using h)]
      exact ih.cons e
    · rw [List.filter_cons_of_neg (by simpa using h),
        List.filter_cons_of_pos (by simpa using h)]
      exact List.perm_middle.trans (ih.cons e)

theorem filter_sub_filter (l : List PIIEntity) (k k' : Str) (h : k' ≠ k) :
    l.filter (fun e => e.entity_type = k') =
      (l.filter fun e => ¬ (e.entity_type = k)).filter
        fun e => e.entity_type = k' := by
  induction l with
  | nil => rfl
  | cons e t ih =>
    by_cases hek : e.entity_type = k
    · have he' : ¬ e.entity_type = k' := by rw [hek]; exact fun hh => h hh.symm
      rw [List.filter_cons_of_neg (by simpa using he'),
        List.filter_cons_of_neg (by simpa using hek)]
      exact ih
    · rw [show ((e :: t).filter fun x => ¬ (x.entity_type = k)) =
          e :: (t.filter fun x => ¬ (x.entity_type = k)) from
        List.filter_cons_of_pos (by simpa using hek)]
      by_cases he' : e.entity_type = k'
      · rw [List.filter_cons_of_pos (by simpa using he'),
          List.filter_cons_of_pos (by simpa using he')]
        rw [ih]
      · rw [List.filter_cons_of_neg (by simpa using he'),
          List.filter_cons_of_neg (by simpa using he')]
        exact ih

theorem groups_perm :
    ∀ (keys : List Str) (l : List PIIEntity), keys.Nodup →
      (∀ e ∈ l, e.entity_type ∈ keys) →
      List.Perm (keys.flatMap fun k => l.filter fun e => e.entity_type = k) l := by
  intro keys
  induction keys with
  | nil =>
    intro l _ hcov
    cases l with
    | nil => simp
    | cons e t => exact absurd (hcov e (List.mem_cons_self _ _)) (by simp)
  | cons k ks ih =>
    intro l hnd hcov
    obtain ⟨hk, hks⟩ := List.nodup_cons.mp hnd
    rw [List.flatMap_cons]
    have hstep : (ks.flatMap fun k' => l.filter fun e => e.entity_type = k') =
        ks.flatMap fun k' =>
          (l.filter fun e => ¬ (e.entity_type = k)).filter
            fun e => e.entity_type = k' := by
      apply flatMap_congr_mem
      intro k' hk'
      exact filter_sub_filter l k k' fun hh => hk (hh ▸ hk')
    rw [hstep]
    have hperm2 := ih (l.filter fun e => ¬ (e.entity_type = k)) hks ?_
    · exact (List.Perm.append_left _ hperm2).trans (filter_split_perm l k)
    · intro e he
      obtain ⟨hel, het⟩ := List.mem_filter.mp he
      have := hcov e hel
      rcases List.mem_cons.mp this with h' | h'
      · exact absurd h' (by simpa using het)
      · exact h'

/-- Claim C5, amended: on spans with `start < end`, `resolveConflicts` is
    idempotent (zero-width spans break idempotence, per the
    counterexample). -/
theorem claim_C5_amended (S : List PIIEntity)
    (hne : ∀ e ∈ S, e.start < e.endPos) :
    resolveConflicts (resolveConflicts S) = resolveConflicts S := by
  by_cases hS : S.length ≤ 1
  · have h1 : resolveConflicts S = S := by rw [resolveConflicts, if_pos hS]
    rw [h1, resolveConflicts, if_pos hS]
  · set O := resolveConflicts S with hO
    have hOne : ∀ e ∈ O, e.start < e.endPos := resolveConflicts_ne hne
    have hOsorted : O.Pairwise (fun a b => rcLE a b = true) :=
      resolveConflicts_sorted S hS
    have hOQ : O.Pairwise (fun a b =>
        ¬ ((b.start = a.start ∧ b.endPos = a.endPos) ∨ isContainedIn b a)) :=
      resolveConflicts_pairwiseQ S hS
    have hOP : O.Pairwise
        (fun a b => a.entity_type = b.entity_type → ¬ overlaps a b) :=
      resolveConflicts_same_type S hne
    -- strict key ordering on O
    have hOkey : O.Pairwise (fun a b =>
        a.start < b.start ∨ (a.start = b.start ∧ a.endPos < b.endPos)) := by
      have := hOsorted.and hOQ
      refine this.imp ?_
      intro a b ⟨h1, h2⟩
      rw [rcLE_iff] at h1
      rcases h1 with h1 | ⟨h1, h3 | ⟨h3, -⟩⟩
      · exact Or.inl h1
      · exact Or.inr ⟨h1, h3⟩
      · exact absurd (Or.inl ⟨h1.symm, h3.symm⟩) (h2 .)
    by_cases hOlen : O.length ≤ 1
    · rw [resolveConflicts, if_pos hOlen]
    · -- groups of O are untouched by mergeOverlapping
      have hgroups : ∀ k, mergeOverlapping mergeEnt
          (O.filter fun e => e.entity_type = k) =
            O.filter fun e => e.entity_type = k := by
        intro k
        refine mergeOverlapping_noop ?_ ?_
        · exact List.Pairwise.filter _
            (hOsorted.imp fun h => by
              rw [leStart_iff]
              rw [rcLE_iff] at h
              rcases h with h | ⟨h, -⟩
              · omega
              · omega)
        · have hfil : (O.filter fun e => e.entity_type = k).Pairwise
              (fun a b => a.entity_type = b.entity_type → ¬ overlaps a b) :=
            List.Pairwise.filter _ hOP
          refine List.Pairwise.imp_of_mem ?_ hfil
          intro a b ha hb h
          have hta : a.entity_type = k := by
            simpa using (List.mem_filter.mp ha).2
          have htb : b.entity_type = k := by
            simpa using (List.mem_filter.mp hb).2
          intro hov
          exact h (hta.trans htb.symm) ⟨hov.2, hov.1⟩
      have hperm : List.Perm ((typeKeys O).flatMap fun k =>
          mergeOverlapping mergeEnt (O.filter fun e => e.entity_type = k)) O := by
        rw [flatMap_congr_mem (typeKeys O) fun k _ => hgroups k]
        exact groups_perm (typeKeys O) O (typeKeys_nodup O)
          fun e he => mem_typeKeys he
      rw [resolveConflicts, if_neg hOlen]
      set AM := (typeKeys O).flatMap fun k =>
        mergeOverlapping mergeEnt (O.filter fun e => e.entity_type = k) with hAM
      have hAMlen : ¬ AM.length ≤ 1 := by
        rw [hperm.length_eq]
        exact hOlen
      rw [removeConflicting, if_neg hAMlen]
      have hsortAM : sortBy rcLE AM = O := by
        refine perm_pairwise_eq (r := fun a b =>
          a.start < b.start ∨ (a.start = b.start ∧ a.endPos < b.endPos))
          ?_ ((sortBy_perm rcLE AM).trans hperm) ?_ hOkey
        · intro a b h h'
          omega
        · -- sorted by rcLE, and all keys distinct (inherited from O by perm)
          have hsorted := sortBy_pairwise rcLE_total rcLE_trans AM
          have hne' : (sortBy rcLE AM).Pairwise (fun a b =>
              ¬ (a.start = b.start ∧ a.endPos = b.endPos)) := by
            have hOne' : O.Pairwise (fun a b =>
                ¬ (a.start = b.start ∧ a.endPos = b.endPos)) :=
              hOkey.imp fun h => by omega
            refine hOne'.perm ?_ ?_
            · exact (hperm.symm).trans (sortBy_perm rcLE AM).symm
            · intro x y h ⟨h1, h2⟩
              exact h ⟨h1.symm, h2.symm⟩
          refine (hsorted.and hne').imp ?_
          intro a b ⟨h1, h2⟩
          rw [rcLE_iff] at h1
          rcases h1 with h1 | ⟨h1, h3 | ⟨h3, -⟩⟩
          · exact Or.inl h1
          · exact Or.inr ⟨h1, h3⟩
          · exact absurd ⟨h1, h3⟩ h2
      rw [hsortAM]
      rw [greedySel_keeps_all O [] (by intro b _ a ha; exact absurd ha (by simp))
        (hOQ.imp fun h => h)]
      rfl

/-- Witness for the amended C5 at concrete well-formed spans. -/
theorem claim_C5_amended_witness :
    resolveConflicts (resolveConflicts
        [⟨strL "A", 3, 5, 1⟩, ⟨strL "A", 4, 9, 1⟩, ⟨strL "B", 0, 2, 1⟩]) =
      resolveConflicts
        [⟨strL "A", 3, 5, 1⟩, ⟨strL "A", 4, 9, 1⟩, ⟨strL "B", 0, 2, 1⟩] :=
  claim_C5_amended
    [⟨strL "A", 3, 5, 1⟩, ⟨strL "A", 4, 9, 1⟩, ⟨strL "B", 0, 2, 1⟩] (by decide)

/-! ## Lemmas: association lists, digit strings, placeholder freshness (C4) -/

theorem alookup_append_some {m t : List (Str × Str)} {k v : Str}
    (h : alookup m k = some v) : alookup (m ++ t) k = some v := by
  induction m with
  | nil => simp [alookup] at h
  | cons kv rest ih =>
    rw [alookup] at h
    rw [List.cons_append, alookup]
    split at h
    · rw [if_pos (by assumption)]
      exact h
    · rw [if_neg (by assumption)]
      exact ih h

theorem alookup_append_none {m t : List (Str × Str)} {k : Str}
    (h : alookup m k = none) : alookup (m ++ t) k = alookup t k := by
  induction m with
  | nil => simp
  | cons kv rest ih =>
    rw [alookup] at h
    rw [List.cons_append, alookup]
    split at h
    · exact absurd h (by simp)
    · rw [if_neg (by assumption)]
      exact ih h

theorem alookup_mem {m : List (Str × Str)} {k v : Str}
    (h : alookup m k = some v) : (k, v) ∈ m := by
  induction m with
  | nil => simp [alookup] at h
  | cons kv rest ih =>
    rw [alookup] at h
    split at h
    · rename_i heq
      simp only [Option.some.injEq] at h
      rw [← heq, ← h]
      exact List.mem_cons_self _ _
    · exact List.mem_cons_of_mem _ (ih h)

theorem alookup_eq_none_iff {m : List (Str × Str)} {k : Str} :
    alookup m k = none ↔ k ∉ m.map Prod.fst := by
  induction m with
  | nil => simp [alookup]
  | cons kv rest ih =>
    rw [alookup]
    by_cases h : kv.1 = k
    · rw [if_pos (by cases kv; exact h)]
      simp [h]
    · rw [if_neg (by cases kv; exact h)]
      rw [ih]
      simp [Ne.symm h]

theorem mem_alookup {m : List (Str × Str)} {k v : Str}
    (hnd : (m.map Prod.fst).Nodup) (h : (k, v) ∈ m) : alookup m k = some v := by
  induction m with
  | nil => exact absurd h (by simp)
  | cons kv rest ih =>
    rw [List.map_cons, List.nodup_cons] at hnd
    rcases List.mem_cons.mp h with rfl | h
    · rw [alookup, if_pos rfl]
    · rw [alookup]
      have hk : kv.1 ≠ k := by
        intro hh
        exact hnd.1 (hh ▸ (List.mem_map.mpr ⟨(k, v), h, rfl⟩))
      rw [if_neg (by cases kv; exact hk)]
      exact ih hnd.2 h

theorem mem_keys_unique {m : List (Str × Str)} {k v1 v2 : Str}
    (hnd : (m.map Prod.fst).Nodup) (h1 : (k, v1) ∈ m) (h2 : (k, v2) ∈ m) :
    v1 = v2 := by
  have := mem_alookup hnd h1
  have := mem_alookup hnd h2
  simp_all

theorem aset_append {m : List (Str × Str)} {k v : Str}
    (h : alookup m k = none) : aset m k v = m ++ [(k, v)] := by
  induction m with
  | nil => rfl
  | cons kv rest ih =>
    rw [alookup] at h
    split at h
    · exact absurd h (by simp)
    · rw [aset, if_neg (by assumption), ih h]
      rfl

theorem nlookup_nset_self (m : List (Str × Nat)) (k : Str) (v : Nat) :
    nlookup (nset m k v) k = some v := by
  induction m with
  | nil => simp [nset, nlookup]
  | cons kv rest ih =>
    rw [nset]
    split
    · rw [nlookup, if_pos rfl]
    · rw [nlookup, if_neg (by assumption)]
      exact ih

theorem nlookup_nset_other (m : List (Str × Nat)) {k k' : Str} (v : Nat)
    (h : k ≠ k') : nlookup (nset m k v) k' = nlookup m k' := by
  induction m with
  | nil => simp [nset, nlookup, h]
  | cons kv rest ih =>
    rw [nset]
    split
    · rename_i heq
      rw [nlookup, if_neg h, nlookup, if_neg (heq ▸ h)]
    · rw [nlookup, nlookup]
      split
      · rfl
      · exact ih

/-- Splitting a list at the last occurrence of a separator is unique. -/
theorem last_sep_eq {c : Char} :
    ∀ (a b d1 d2 : Str), a ++ c :: d1 = b ++ c :: d2 → c ∉ d1 → c ∉ d2 →
      a = b ∧ d1 = d2 := by
  intro a
  induction a with
  | nil =>
    intro b d1 d2 heq h1 h2
    cases b with
    | nil => simpa using heq
    | cons x b' =>
      simp only [List.nil_append, List.cons_append, List.cons.injEq] at heq
      exact absurd (heq.2 ▸ List.mem_append_right b' (List.mem_cons_self c d2))
        h1
  | cons x a' ih =>
    intro b d1 d2 heq h1 h2
    cases b with
    | nil =>
      simp only [List.cons_append, List.nil_append, List.cons.injEq] at heq
      exact absurd
        (heq.2.symm ▸ List.mem_append_right a' (List.mem_cons_self c d1)) h2
    | cons y b' =>
      simp only [List.cons_append, List.cons.injEq] at heq
      obtain ⟨h3, h4⟩ := ih b' d1 d2 heq.2 h1 h2
      exact ⟨by rw [heq.1, h3], h4⟩

theorem digitCh_mem : ∀ n, digitCh n ∈ strL "0123456789" := by
  intro n
  match n with
  | 0 => decide
  | 1 => decide
  | 2 => decide
  | 3 => decide
  | 4 => decide
  | 5 => decide
  | 6 => decide
  | 7 => decide
  | 8 => decide
  | (m + 9) =>
    show '9' ∈ _
    decide

theorem natCharsGo_mem :
    ∀ (fuel n : Nat), ∀ ch ∈ natCharsGo fuel n, ch ∈ strL "0123456789" := by
  intro fuel
  induction fuel with
  | zero =>
    intro n ch h
    rw [List.mem_singleton.mp h]
    exact digitCh_mem n
  | succ f ih =>
    intro n ch h
    rw [natCharsGo] at h
    split at h
    · rw [List.mem_singleton.mp h]
      exact digitCh_mem n
    · rcases List.mem_append.mp h with h | h
      · exact ih _ ch h
      · rw [List.mem_singleton.mp h]
        exact digitCh_mem (n % 10)

theorem natChars_mem {n : Nat} : ∀ ch ∈ natChars n, ch ∈ strL "0123456789" :=
  natCharsGo_mem n n

theorem natChars_no_underscore {n : Nat} : '_' ∉ natChars n := by
  intro h
  have := natChars_mem _ h
  simp [strL] at this

theorem natChars_no_lt {n : Nat} : '<' ∉ natChars n := by
  intro h
  have := natChars_mem _ h
  simp [strL] at this

theorem natChars_no_gt {n : Nat} : '>' ∉ natChars n := by
  intro h
  have := natChars_mem _ h
  simp [strL] at this

theorem natChars_no_dollar {n : Nat} : '$' ∉ natChars n := by
  intro h
  have := natChars_mem _ h
  simp [strL] at this

theorem natCharsGo_irrel :
    ∀ (f1 f2 n : Nat), n ≤ f1 → n ≤ f2 → natCharsGo f1 n = natCharsGo f2 n := by
  intro f1
  induction f1 with
  | zero =>
    intro f2 n h1 h2
    have : n = 0 := by omega
    subst this
    cases f2 with
    | zero => rfl
    | succ f => rw [natCharsGo, natCharsGo, if_pos (by omega)]
  | succ f ih =>
    intro f2 n h1 h2
    cases f2 with
    | zero =>
      have : n = 0 := by omega
      subst this
      rw [natCharsGo, natCharsGo, if_pos (by omega)]
    | succ f' =>
      rw [natCharsGo, natCharsGo]
      by_cases h : n < 10
      · rw [if_pos h, if_pos h]
      · rw [if_neg h, if_neg h]
        have hdiv : n / 10 < n := Nat.div_lt_self (by omega) (by omega)
        rw [ih f' (n / 10) (by omega) (by omega)]

theorem natChars_lt {n : Nat} (h : n < 10) : natChars n = [digitCh n] := by
  rw [natChars]
  cases n with
  | zero => rfl
  | succ m => rw [natCharsGo, if_pos h]

theorem natChars_ge {n : Nat} (h : 10 ≤ n) :
    natChars n = natChars (n / 10) ++ [digitCh (n % 10)] := by
  rw [natChars, natChars]
  cases n with
  | zero => omega
  | succ m =>
    rw [natCharsGo, if_neg (by omega)]
    have hdiv : (m + 1) / 10 < m + 1 := Nat.div_lt_self (by omega) (by omega)
    rw [natCharsGo_irrel m ((m + 1) / 10) ((m + 1) / 10) (by omega) (by omega)]

theorem natChars_ne_nil (n : Nat) : natChars n ≠ [] := by
  by_cases h : n < 10
  · rw [natChars_lt h]; simp
  · rw [natChars_ge (by omega)]; simp

theorem digitCh_inj {m n : Nat} (hm : m < 10) (hn : n < 10)
    (h : digitCh m = digitCh n) : m = n := by
  interval_cases m <;> interval_cases n <;> simp_all [digitCh]

theorem concat_inj {x y : Str} {a b : Char} (h : x ++ [a] = y ++ [b]) :
    x = y ∧ a = b := by
  have := congrArg List.reverse h
  simp only [List.reverse_append, List.reverse_cons, List.reverse_nil,
    List.nil_append, List.singleton_append, List.cons.injEq] at this
  exact ⟨by
    have := congrArg List.reverse this.2
    simpa using this, this.1⟩

theorem natChars_inj : ∀ m n : Nat, natChars m = natChars n → m = n := by
  intro m
  induction m using Nat.strong_induction_on with
  | _ m ih =>
    intro n h
    by_cases hm : m < 10
    · by_cases hn : n < 10
      · rw [natChars_lt hm, natChars_lt hn] at h
        exact digitCh_inj hm hn (by simpa using h)
      · rw [natChars_lt hm, natChars_ge (by omega)] at h
        have := congrArg List.length h
        simp only [List.length_singleton, List.length_append] at this
        have := natChars_ne_nil (n / 10)
        have hlen : 1 ≤ (natChars (n / 10)).length :=
          List.length_pos.mpr (natChars_ne_nil (n / 10))
        omega
    · by_cases hn : n < 10
      · rw [natChars_ge (by omega), natChars_lt hn] at h
        have := congrArg List.length h
        simp only [List.length_singleton, List.length_append] at this
        have hlen : 1 ≤ (natChars (m / 10)).length :=
          List.length_pos.mpr (natChars_ne_nil (m / 10))
        omega
      · have h10m : (10 : Nat) ≤ m := by omega
        have h10n : (10 : Nat) ≤ n := by omega
        rw [natChars_ge h10m, natChars_ge h10n] at h
        obtain ⟨h1, h2⟩ := concat_inj h
        have hdiv : m / 10 < m := Nat.div_lt_self (by omega) (by omega)
        have heq1 : m / 10 = n / 10 := ih (m / 10) hdiv (n / 10) h1
        have heq2 : m % 10 = n % 10 :=
          digitCh_inj (Nat.mod_lt _ (by omega)) (Nat.mod_lt _ (by omega)) h2
        omega

theorem plainPlaceholder_inj {t t' : Str} {m m' : Nat}
    (h : plainPlaceholder t m = plainPlaceholder t' m') : t = t' ∧ m = m' := by
  rw [plainPlaceholder, plainPlaceholder] at h
  injection h with h0 h
  obtain ⟨h1, -⟩ := concat_inj h
  obtain ⟨h2, h3⟩ := last_sep_eq t t' (natChars m) (natChars m') h1
    natChars_no_underscore natChars_no_underscore
  exact ⟨h2, natChars_inj m m' h3⟩

theorem plainPlaceholder_ne_nil (t : Str) (m : Nat) :
    plainPlaceholder t m ≠ [] := by
  rw [plainPlaceholder]
  exact List.cons_ne_nil _ _

/-- Dollar-free replacement strings expand to themselves. -/
theorem dollarExpand_no_dollar (matched before after : Str) :
    ∀ r : Str, '$' ∉ r → dollarExpand matched before after r = r := by
  intro r
  induction r with
  | nil =>
    intro _
    rfl
  | cons c rest ih =>
    intro h
    have hc : c ≠ '$' := fun hh => h (hh ▸ List.mem_cons_self c rest)
    rw [dollarExpand.eq_def]
    simp only
    rw [if_neg hc, ih fun hh => h (List.mem_cons_of_mem c hh)]

/-- If the count slot does not occur in `t`, its first occurrence in
    `t ++ "_{N}>"` is just past the underscore. -/
theorem firstIndexOfStr_template :
    ∀ t : Str, firstIndexOfStr t (strL "{N}") = none →
      firstIndexOfStr (t ++ strL "_{N}>") (strL "{N}") = some (t.length + 1) := by
  intro t
  induction t with
  | nil =>
    intro _
    decide
  | cons c t' ih =>
    intro hN
    rw [firstIndexOfStr] at hN
    cases hpre : (strL "{N}").isPrefixOf (c :: t') with
    | true =>
      rw [if_pos hpre] at hN
      exact absurd hN (by simp)
    | false =>
      have hpre' := hpre
      rw [if_neg (by simp [hpre'])] at hN
      have hN' : firstIndexOfStr t' (strL "{N}") = none := by
        cases hfi : firstIndexOfStr t' (strL "{N}") with
        | none => rfl
        | some j =>
          rw [hfi] at hN
          simp at hN
      rw [List.cons_append, firstIndexOfStr]
      rw [if_neg ?hpre2]
      case hpre2 =>
        intro hpf
        obtain ⟨z, hz⟩ := List.isPrefixOf_iff_prefix.mp hpf
        rw [show strL "{N}" = '{' :: 'N' :: '}' :: [] from rfl] at hz hpre'
        simp only [List.cons_append, List.nil_append] at hz
        injection hz with h1 hz
        subst h1
        cases t' with
        | nil =>
          rw [List.nil_append] at hz
          injection hz with h2 hz
          exact absurd h2 (by decide)
        | cons d t2 =>
          rw [List.cons_append] at hz
          injection hz with h2 hz
          subst h2
          cases t2 with
          | nil =>
            rw [List.nil_append] at hz
            injection hz with h3 hz
            exact absurd h3 (by decide)
          | cons g t3 =>
            rw [List.cons_append] at hz
            injection hz with h3 hz
            subst h3
            have htrue : List.isPrefixOf (['{', 'N', '}'] : Str)
                ('{' :: 'N' :: '}' :: t3) = true :=
              List.isPrefixOf_iff_prefix.mpr ⟨t3, rfl⟩
            rw [htrue] at hpre'
            exact absurd hpre' (by simp)
      rw [ih hN']
      simp

/-- On safe entity types the JS template substitution is plain
    concatenation. -/
theorem mkPlaceholder_safe_eq {t : Str} (h : SafeType t) (n : Nat) :
    mkPlaceholder t n = plainPlaceholder t n := by
  obtain ⟨hd, hN⟩ := h
  have hinner : jsReplace (strL "<{TYPE}_{N}>") (strL "{TYPE}") t =
      '<' :: (t ++ strL "_{N}>") := by
    show ['<'] ++ dollarExpand (strL "{TYPE}") ['<'] (strL "_{N}>") t ++
        strL "_{N}>" = '<' :: (t ++ strL "_{N}>")
    rw [dollarExpand_no_dollar _ _ _ t hd]
    simp
  rw [mkPlaceholder, hinner]
  have hidx : firstIndexOfStr ('<' :: (t ++ strL "_{N}>")) (strL "{N}") =
      some (t.length + 2) := by
    rw [firstIndexOfStr]
    rw [if_neg (by
      rw [show List.isPrefixOf (strL "{N}") ('<' :: (t ++ strL "_{N}>")) =
        false from rfl]
      simp)]
    rw [firstIndexOfStr_template t hN]
    rfl
  rw [jsReplace, hidx]
  show ('<' :: (t ++ strL "_{N}>")).take (t.length + 2) ++
      dollarExpand (strL "{N}")
        (('<' :: (t ++ strL "_{N}>")).take (t.length + 2))
        (('<' :: (t ++ strL "_{N}>")).drop (t.length + 2 + (strL "{N}").length))
        (natChars n) ++
      ('<' :: (t ++ strL "_{N}>")).drop (t.length + 2 + (strL "{N}").length) =
    plainPlaceholder t n
  rw [dollarExpand_no_dollar _ _ _ (natChars n) natChars_no_dollar]
  have htake : ('<' :: (t ++ strL "_{N}>")).take (t.length + 2) =
      '<' :: (t ++ ['_']) := by
    rw [show t.length + 2 = (t.length + 1) + 1 from rfl, List.take_succ_cons]
    rw [show t.length + 1 = t.length + 1 from rfl, List.take_append 1]
    rfl
  have hdrop : ('<' :: (t ++ strL "_{N}>")).drop
      (t.length + 2 + (strL "{N}").length) = ['>'] := by
    rw [show t.length + 2 + (strL "{N}").length = (t.length + 4) + 1 by
      show t.length + 2 + 3 = t.length + 4 + 1
      omega]
    rw [List.drop_succ_cons, List.drop_append 4]
    rfl
  rw [htake, hdrop, plainPlaceholder]
  simp

/-- Safe placeholders are nonempty. -/
theorem mkPlaceholder_safe_ne_nil {t : Str} (h : SafeType t) (m : Nat) :
    mkPlaceholder t m ≠ [] := by
  rw [mkPlaceholder_safe_eq h]
  exact plainPlaceholder_ne_nil t m

/-- Placeholder generation is injective on safe entity types. -/
theorem mkPlaceholder_safe_inj {t t' : Str} {m m' : Nat} (h1 : SafeType t)
    (h2 : SafeType t') (h : mkPlaceholder t m = mkPlaceholder t' m') :
    t = t' ∧ m = m' := by
  rw [mkPlaceholder_safe_eq h1, mkPlaceholder_safe_eq h2] at h
  exact plainPlaceholder_inj h

theorem assignStep_alloc (text : Str) (c : MaskingContext)
    (acc : List (PIIEntity × Str)) (e : PIIEntity)
    (h : (alookup c.reverseMapping (sliceL text e.start e.endPos)).getD [] = []) :
    assignStep text (c, acc) e =
      (⟨aset c.mapping
          (mkPlaceholder e.entity_type ((nlookup c.counters e.entity_type).getD 0 + 1))
          (sliceL text e.start e.endPos),
        aset c.reverseMapping (sliceL text e.start e.endPos)
          (mkPlaceholder e.entity_type ((nlookup c.counters e.entity_type).getD 0 + 1)),
        nset c.counters e.entity_type ((nlookup c.counters e.entity_type).getD 0 + 1)⟩,
       acc ++ [(e, mkPlaceholder e.entity_type
          ((nlookup c.counters e.entity_type).getD 0 + 1))]) := by
  simp only [assignStep, generatePlaceholder, h, if_pos]

theorem assignStep_reuse (text : Str) (c : MaskingContext)
    (acc : List (PIIEntity × Str)) (e : PIIEntity) {p : Str}
    (h : alookup c.reverseMapping (sliceL text e.start e.endPos) = some p)
    (hp : p ≠ []) :
    assignStep text (c, acc) e = (c, acc ++ [(e, p)]) := by
  simp only [assignStep, h, Option.getD_some, if_neg hp]

theorem ctxInv_create : CtxInv createMaskingContext :=
  ⟨rfl, List.nodup_nil, List.nodup_nil, by simp [createMaskingContext]⟩

theorem rev_key_shape {c : MaskingContext} (hinv : CtxInv c) {v p : Str}
    (h : alookup c.reverseMapping v = some p) :
    ∃ t m, p = mkPlaceholder t m ∧ SafeType t ∧ 1 ≤ m ∧
      m ≤ (nlookup c.counters t).getD 0 := by
  have hmem := alookup_mem h
  rw [hinv.1] at hmem
  obtain ⟨kv, hkv, heq⟩ := List.mem_map.mp hmem
  obtain ⟨t, m, hshape, hst, hm1, hm2⟩ := hinv.2.2.2 kv hkv
  exact ⟨t, m, by
    have : p = kv.1 := by
      have := congrArg Prod.snd heq
      simpa using this.symm
    rw [this, hshape], hst, hm1, hm2⟩

theorem assignStep_spec (text : Str) (c : MaskingContext)
    (acc : List (PIIEntity × Str)) (e : PIIEntity) (hinv : CtxInv c)
    (hsafe : SafeType e.entity_type) :
    CtxInv (assignStep text (c, acc) e).1 ∧
      (∃ tail, (assignStep text (c, acc) e).1.reverseMapping =
        c.reverseMapping ++ tail) ∧
      ∃ p, (assignStep text (c, acc) e).2 = acc ++ [(e, p)] ∧
        alookup (assignStep text (c, acc) e).1.reverseMapping
          (sliceL text e.start e.endPos) = some p := by
  obtain ⟨hswap, hkeys, hvals, hshape⟩ := hinv
  set v := sliceL text e.start e.endPos with hv
  by_cases hf : (alookup c.reverseMapping v).getD [] = []
  · -- allocation branch
    have hnone : alookup c.reverseMapping v = none := by
      cases hl : alookup c.reverseMapping v with
      | none => rfl
      | some p =>
        exfalso
        obtain ⟨t, m, hp, hst, -, -⟩ :=
          rev_key_shape ⟨hswap, hkeys, hvals, hshape⟩ hl
        rw [hl] at hf
        simp only [Option.getD_some] at hf
        exact mkPlaceholder_safe_ne_nil hst m (by rw [← hp]; exact hf)
    set cnt := (nlookup c.counters e.entity_type).getD 0 + 1 with hcnt
    set ph := mkPlaceholder e.entity_type cnt with hph
    have hfresh : alookup c.mapping ph = none := by
      rw [alookup_eq_none_iff]
      intro hmem
      obtain ⟨kv, hkv, hkeq⟩ := List.mem_map.mp hmem
      obtain ⟨t, m, hsh, hst, hm1, hm2⟩ := hshape kv hkv
      rw [hkeq, hph] at hsh
      obtain ⟨ht, hm⟩ := mkPlaceholder_safe_inj hst hsafe hsh.symm
      rw [ht] at hm2
      rw [hcnt] at hm
      omega
    have hvfresh : v ∉ c.reverseMapping.map Prod.fst :=
      alookup_eq_none_iff.mp hnone
    have hmap' : aset c.mapping ph v = c.mapping ++ [(ph, v)] :=
      aset_append hfresh
    have hrev' : aset c.reverseMapping v ph = c.reverseMapping ++ [(v, ph)] :=
      aset_append hnone
    rw [assignStep_alloc text c acc e hf]
    refine ⟨⟨?_, ?_, ?_, ?_⟩, ⟨[(v, ph)], by exact hrev'⟩,
      ⟨ph, rfl, ?_⟩⟩
    · show aset c.reverseMapping v ph =
        (aset c.mapping ph v).map fun kv => (kv.2, kv.1)
      rw [hmap', hrev', List.map_append, hswap]
      rfl
    · show ((aset c.mapping ph v).map Prod.fst).Nodup
      rw [hmap', List.map_append]
      simp only [List.map_cons, List.map_nil]
      rw [List.nodup_append]
      refine ⟨hkeys, List.nodup_singleton _, ?_⟩
      intro a ha
      simp only [List.mem_singleton]
      intro hb
      rw [hb] at ha
      exact (alookup_eq_none_iff.mp hfresh) ha
    · show ((aset c.mapping ph v).map Prod.snd).Nodup
      rw [hmap', List.map_append]
      simp only [List.map_cons, List.map_nil]
      rw [List.nodup_append]
      refine ⟨hvals, List.nodup_singleton _, ?_⟩
      intro a ha
      simp only [List.mem_singleton]
      intro hb
      rw [hb] at ha
      apply hvfresh
      rw [hswap, List.map_map,
        show (Prod.fst ∘ fun kv : Str × Str => (kv.2, kv.1)) = Prod.snd from rfl]
      exact ha
    · show ∀ kv ∈ aset c.mapping ph v, _
      rw [hmap']
      intro kv hkv
      rcases List.mem_append.mp hkv with hkv | hkv
      · obtain ⟨t, m, hsh, hst, hm1, hm2⟩ := hshape kv hkv
        refine ⟨t, m, hsh, hst, hm1, ?_⟩
        by_cases ht : e.entity_type = t
        · rw [← ht, nlookup_nset_self]
          simp only [Option.getD_some]
          rw [← ht] at hm2
          omega
        · rw [nlookup_nset_other _ _ ht]
          exact hm2
      · rw [List.mem_singleton.mp hkv]
        exact ⟨e.entity_type, cnt, rfl, hsafe, by omega, by
          rw [nlookup_nset_self]
          simp⟩
    · show alookup (aset c.reverseMapping v ph) v = some ph
      rw [hrev', alookup_append_none hnone, alookup, if_pos rfl]
  · -- reuse branch
    cases hl : alookup c.reverseMapping v with
    | none =>
      rw [hl] at hf
      simp at hf
    | some p =>
      rw [hl] at hf
      simp only [Option.getD_some] at hf
      rw [assignStep_reuse text c acc e hl hf]
      exact ⟨⟨hswap, hkeys, hvals, hshape⟩, ⟨[], by simp⟩, ⟨p, rfl, hl⟩⟩

theorem maskAssign_fold_spec (text : Str) :
    ∀ (sorted : List PIIEntity) (c : MaskingContext)
      (acc : List (PIIEntity × Str)), CtxInv c →
      (∀ e ∈ sorted, SafeType e.entity_type) →
      CtxInv (sorted.foldl (assignStep text) (c, acc)).1 ∧
        (∃ tail, (sorted.foldl (assignStep text) (c, acc)).1.reverseMapping =
          c.reverseMapping ++ tail) ∧
        ∃ ps, (sorted.foldl (assignStep text) (c, acc)).2 = acc ++ ps ∧
          ∀ pr ∈ ps,
            alookup (sorted.foldl (assignStep text) (c, acc)).1.reverseMapping
              (sliceL text pr.1.start pr.1.endPos) = some pr.2 := by
  intro sorted
  induction sorted with
  | nil =>
    intro c acc hinv _
    exact ⟨hinv, ⟨[], by simp⟩, ⟨[], by simp, by simp⟩⟩
  | cons e rest ih =>
    intro c acc hinv hsafe
    rw [List.foldl_cons]
    obtain ⟨hinv1, ⟨tail1, htail1⟩, ⟨p, hp1, hp2⟩⟩ :=
      assignStep_spec text c acc e hinv (hsafe e (List.mem_cons_self e rest))
    cases hstep : assignStep text (c, acc) e with
    | mk c1 acc1 =>
      rw [hstep] at hinv1 htail1 hp1 hp2
      simp only at hinv1 htail1 hp1 hp2
      obtain ⟨hinv2, ⟨tail2, htail2⟩, ⟨ps, hps1, hps2⟩⟩ :=
        ih c1 acc1 hinv1 fun q hq => hsafe q (List.mem_cons_of_mem e hq)
      refine ⟨hinv2, ⟨tail1 ++ tail2, by rw [htail2, htail1, List.append_assoc]⟩,
        ⟨(e, p) :: ps, ?_, ?_⟩⟩
      · rw [hps1, hp1]
        simp
      · intro pr hpr
        rcases List.mem_cons.mp hpr with rfl | hpr
        · rw [htail2]
          exact alookup_append_some hp2
        · exact hps2 pr hpr

theorem mask_context_eq (text : Str) (entities : List PIIEntity)
    (c : MaskingContext) :
    (mask text entities c).context =
      (maskAssign text (sortBy leStart entities) c).1 := by
  by_cases h : entities = []
  · subst h
    rfl
  · simp only [mask, if_neg h]

theorem runMasks_spec :
    ∀ (calls : List (Str × List PIIEntity)) (c : MaskingContext)
      (acc : List (Str × Str)), CtxInv c →
      (∀ call ∈ calls, ∀ e ∈ call.2, SafeType e.entity_type) →
      CtxInv (runMasksCtx calls c) ∧
        (∃ tail, (runMasksCtx calls c).reverseMapping =
          c.reverseMapping ++ tail) ∧
        (calls.foldl
            (fun (st : MaskingContext × List (Str × Str)) call =>
              ((mask call.1 call.2 st.1).context, st.2 ++ callPairs call st.1))
            (c, acc)).1 = runMasksCtx calls c ∧
        ∃ ps, (calls.foldl
            (fun (st : MaskingContext × List (Str × Str)) call =>
              ((mask call.1 call.2 st.1).context, st.2 ++ callPairs call st.1))
            (c, acc)).2 = acc ++ ps ∧
          ∀ pr ∈ ps,
            alookup (runMasksCtx calls c).reverseMapping pr.1 = some pr.2 := by
  intro calls
  induction calls with
  | nil =>
    intro c acc hinv _
    exact ⟨hinv, ⟨[], by simp [runMasksCtx]⟩, rfl, ⟨[], by simp, by simp⟩⟩
  | cons call rest ih =>
    intro c acc hinv hsafe
    have hc1 : (mask call.1 call.2 c).context =
        (maskAssign call.1 (sortBy leStart call.2) c).1 :=
      mask_context_eq call.1 call.2 c
    obtain ⟨hinvA, ⟨tailA, htailA⟩, ⟨psA, hpsA1, hpsA2⟩⟩ :=
      maskAssign_fold_spec call.1 (sortBy leStart call.2) c [] hinv
        fun e he => hsafe call (List.mem_cons_self call rest) e (mem_sortBy.mp he)
    have hinv1 : CtxInv (mask call.1 call.2 c).context := by
      rw [hc1]
      exact hinvA
    have hrev1 : (mask call.1 call.2 c).context.reverseMapping =
        c.reverseMapping ++ tailA := by
      rw [hc1]
      exact htailA
    obtain ⟨hinv2, ⟨tail2, htail2⟩, hfold1, ⟨ps2, hps21, hps22⟩⟩ :=
      ih (mask call.1 call.2 c).context (acc ++ callPairs call c) hinv1
        fun cl hcl e he => hsafe cl (List.mem_cons_of_mem call hcl) e he
    have hctx : runMasksCtx (call :: rest) c =
        runMasksCtx rest (mask call.1 call.2 c).context := rfl
    refine ⟨by rw [hctx]; exact hinv2,
      ⟨tailA ++ tail2, by rw [hctx, htail2, hrev1, List.append_assoc]⟩,
      ?_, ⟨callPairs call c ++ ps2, ?_, ?_⟩⟩
    · rw [List.foldl_cons]
      rw [hctx]
      exact hfold1
    · rw [List.foldl_cons]
      rw [hps21, List.append_assoc]
    · intro pr hpr
      rcases List.mem_append.mp hpr with hpr | hpr
      · -- a pair of the first call: resolved in the post-call context,
        -- persists into the final context
        rw [callPairs] at hpr
        obtain ⟨ep, hep, hpr_eq⟩ := List.mem_map.mp hpr
        have hep' : ep ∈ psA := by
          have heq : (maskAssign call.1 (sortBy leStart call.2) c).2 =
              [] ++ psA := hpsA1
          rw [List.nil_append] at heq
          rw [heq] at hep
          exact hep
        have hlook := hpsA2 ep hep'
        rw [hctx, htail2]
        cases hpr_eq
        apply alookup_append_some
        rw [hc1]
        exact hlook
      · rw [hctx]
        exact hps22 pr hpr

/-- Claim C4 counterexample: the JS template substitution replaces only the
    first `"{N}"`, so the entity types `"A{N}B1"` and `"A1B{N}"` both
    produce the placeholder `"<A1B1_{N}>"`; masking `"ab"` with one span of
    each type makes the two distinct original values `"a"` and `"b"` share
    that placeholder. -/
theorem claim_C4_counterexample :
    strL "a" ≠ strL "b" ∧
    alookup (runMasksCtx
        [(strL "ab", [⟨strL "A{N}B1", 0, 1, 1⟩, ⟨strL "A1B{N}", 1, 2, 1⟩])]
        createMaskingContext).reverseMapping (strL "a") =
      some (strL "<A1B1_{N}>") ∧
    alookup (runMasksCtx
        [(strL "ab", [⟨strL "A{N}B1", 0, 1, 1⟩, ⟨strL "A1B{N}", 1, 2, 1⟩])]
        createMaskingContext).reverseMapping (strL "b") =
      some (strL "<A1B1_{N}>") := by
  exact ⟨by decide, by decide, by decide⟩

/-- C4 (amended): across any sequence of `mask` calls sharing one context,
    all of whose entity types are safe for the placeholder template (no
    dollar patterns, no embedded count slot),
    (a) after every call, `reverseMapping[mapping[k]] = k` for every mapping
    key `k`; (b) two different original values never share a placeholder;
    (c) every assignment made anywhere in the sequence agrees with the final
    reverse mapping at its original value, so (d) two assignments have equal
    placeholders exactly when their original values are equal. -/
theorem claim_C4_amended (calls : List (Str × List PIIEntity))
    (hsafe : ∀ call ∈ calls, ∀ e ∈ call.2, SafeType e.entity_type) :
    (∀ pre suf, calls = pre ++ suf →
      ∀ k v, alookup (runMasksCtx pre createMaskingContext).mapping k = some v →
        alookup (runMasksCtx pre createMaskingContext).reverseMapping v =
          some k) ∧
      (∀ v1 v2 q,
        alookup (runMasksCtx calls createMaskingContext).reverseMapping v1 =
          some q →
        alookup (runMasksCtx calls createMaskingContext).reverseMapping v2 =
          some q → v1 = v2) ∧
      (∀ pr ∈ runMasksPairs calls createMaskingContext,
        alookup (runMasksCtx calls createMaskingContext).reverseMapping pr.1 =
          some pr.2) ∧
      (∀ pr ∈ runMasksPairs calls createMaskingContext,
        ∀ qr ∈ runMasksPairs calls createMaskingContext,
          (pr.1 = qr.1 ↔ pr.2 = qr.2)) := by
  have hrevkeys : ∀ c : MaskingContext, CtxInv c →
      (c.reverseMapping.map Prod.fst).Nodup := by
    intro c hinv
    rw [hinv.1, List.map_map]
    have : (Prod.fst ∘ fun kv : Str × Str => (kv.2, kv.1)) = Prod.snd := rfl
    rw [this]
    exact hinv.2.2.1
  have hinvall : ∀ calls',
      (∀ call ∈ calls', ∀ e ∈ call.2, SafeType e.entity_type) →
      CtxInv (runMasksCtx calls' createMaskingContext) :=
    fun calls' hs =>
      (runMasks_spec calls' createMaskingContext [] ctxInv_create hs).1
  have hb : ∀ v1 v2 q,
      alookup (runMasksCtx calls createMaskingContext).reverseMapping v1 =
        some q →
      alookup (runMasksCtx calls createMaskingContext).reverseMapping v2 =
        some q → v1 = v2 := by
    intro v1 v2 q h1 h2
    have hinv := hinvall calls hsafe
    have hm1 := alookup_mem h1
    have hm2 := alookup_mem h2
    rw [hinv.1] at hm1 hm2
    obtain ⟨kv1, hkv1, he1⟩ := List.mem_map.mp hm1
    obtain ⟨kv2, hkv2, he2⟩ := List.mem_map.mp hm2
    have hq1 : kv1.1 = q := by
      have := congrArg Prod.snd he1
      simpa using this
    have hq2 : kv2.1 = q := by
      have := congrArg Prod.snd he2
      simpa using this
    have hv1 : kv1.2 = v1 := by
      have := congrArg Prod.fst he1
      simpa using this
    have hv2 : kv2.2 = v2 := by
      have := congrArg Prod.fst he2
      simpa using this
    have hmem1 : (q, kv1.2) ∈ (runMasksCtx calls createMaskingContext).mapping := by
      rw [← hq1]
      exact hkv1
    have hmem2 : (q, kv2.2) ∈ (runMasksCtx calls createMaskingContext).mapping := by
      rw [← hq2]
      exact hkv2
    have := mem_keys_unique hinv.2.1 hmem1 hmem2
    rw [← hv1, ← hv2, this]
  have hc : ∀ pr ∈ runMasksPairs calls createMaskingContext,
      alookup (runMasksCtx calls createMaskingContext).reverseMapping pr.1 =
        some pr.2 := by
    intro pr hpr
    obtain ⟨-, -, -, ⟨ps, hps1, hps2⟩⟩ :=
      runMasks_spec calls createMaskingContext [] ctxInv_create hsafe
    rw [runMasksPairs, hps1, List.nil_append] at hpr
    exact hps2 pr hpr
  refine ⟨?_, hb, hc, ?_⟩
  · intro pre suf hsplit k v h
    have hinv := hinvall pre fun cl hcl e he =>
      hsafe cl (by rw [hsplit]; exact List.mem_append_left suf hcl) e he
    have hmem := alookup_mem h
    have : (v, k) ∈ (runMasksCtx pre createMaskingContext).reverseMapping := by
      rw [hinv.1]
      exact List.mem_map.mpr ⟨(k, v), hmem, rfl⟩
    exact mem_alookup (hrevkeys _ hinv) this
  · intro pr hpr qr hqr
    constructor
    · intro h
      have h1 := hc pr hpr
      have h2 := hc qr hqr
      rw [h] at h1
      rw [h1] at h2
      simpa using h2
    · intro h
      exact hb pr.1 qr.1 pr.2 (hc pr hpr) (h ▸ hc qr hqr)

/-- Witness for C4: a concrete single-call sequence, with the assignment of
    the value `"a"` recovered from the final reverse mapping. -/
theorem claim_C4_amended_witness :
    alookup (runMasksCtx [(strL "ab", [⟨strL "T", 0, 1, 1⟩])]
        createMaskingContext).reverseMapping (strL "a") =
      some (strL "<T_1>") :=
  (claim_C4_amended [(strL "ab", [⟨strL "T", 0, 1, 1⟩])] (by decide)).2.2.1
    (strL "a", strL "<T_1>") (by decide)

/-! ## Lemmas: replaceAll over piece decompositions (C1, C2) -/

theorem replaceAll_nil (pat rep : Str) : replaceAll [] pat rep = [] := rfl

theorem replaceAllGo_irrel (pat rep : Str) :
    ∀ (f1 f2 : Nat) (s : Str), s.length ≤ f1 → s.length ≤ f2 →
      replaceAllGo pat rep f1 s = replaceAllGo pat rep f2 s := by
  intro f1
  induction f1 with
  | zero =>
    intro f2 s h1 h2
    have : s = [] := by
      cases s with
      | nil => rfl
      | cons c r => simp at h1
    subst this
    cases f2 <;> rfl
  | succ f ih =>
    intro f2 s h1 h2
    cases s with
    | nil => cases f2 <;> rfl
    | cons c rest =>
      cases f2 with
      | zero => simp at h2
      | succ f' =>
        rw [replaceAllGo, replaceAllGo]
        by_cases hm : pat ≠ [] ∧ pat.isPrefixOf (c :: rest)
        · rw [if_pos hm, if_pos hm]
          have hplen : 1 ≤ pat.length := List.length_pos.mpr hm.1
          have hdlen : ((c :: rest).drop pat.length).length ≤ f := by
            simp only [List.length_drop, List.length_cons] at *
            omega
          have hdlen' : ((c :: rest).drop pat.length).length ≤ f' := by
            simp only [List.length_drop, List.length_cons] at *
            omega
          rw [ih f' _ hdlen hdlen']
        · rw [if_neg hm, if_neg hm]
          have hr : rest.length ≤ f := by
            simp only [List.length_cons] at h1
            omega
          have hr' : rest.length ≤ f' := by
            simp only [List.length_cons] at h2
            omega
          rw [ih f' rest hr hr']

theorem replaceAll_cons (c : Char) (rest pat rep : Str) :
    replaceAll (c :: rest) pat rep =
      if pat ≠ [] ∧ pat.isPrefixOf (c :: rest) then
        rep ++ replaceAll ((c :: rest).drop pat.length) pat rep
      else c :: replaceAll rest pat rep := by
  show replaceAllGo pat rep (rest.length + 1) (c :: rest) = _
  rw [replaceAllGo]
  by_cases hm : pat ≠ [] ∧ pat.isPrefixOf (c :: rest)
  · rw [if_pos hm, if_pos hm]
    have hplen : 1 ≤ pat.length := List.length_pos.mpr hm.1
    rw [replaceAll]
    rw [replaceAllGo_irrel pat rep rest.length ((c :: rest).drop pat.length).length
      ((c :: rest).drop pat.length)
      (by simp only [List.length_drop, List.length_cons]; omega)
      (Nat.le_refl _)]
  · rw [if_neg hm, if_neg hm]
    rfl

theorem IsTok.ne_nil {k : Str} (h : IsTok k) : k ≠ [] := by
  obtain ⟨w, rfl, -, -⟩ := h
  exact List.cons_ne_nil _ _

theorem IsTok.head {k : Str} (h : IsTok k) : ∃ k', k = '<' :: k' := by
  obtain ⟨w, rfl, -, -⟩ := h
  exact ⟨w ++ ['>'], rfl⟩

theorem IsTok.mem_lt {k : Str} (h : IsTok k) : '<' ∈ k := by
  obtain ⟨w, rfl, -, -⟩ := h
  exact List.mem_cons_self _ _

/-- Splitting a list at the first occurrence of a separator is unique. -/
theorem first_sep_eq {c : Char} :
    ∀ (a b d1 d2 : Str), a ++ c :: d1 = b ++ c :: d2 → c ∉ a → c ∉ b →
      a = b ∧ d1 = d2 := by
  intro a
  induction a with
  | nil =>
    intro b d1 d2 heq h1 h2
    cases b with
    | nil => simpa using heq
    | cons x b' =>
      simp only [List.nil_append, List.cons_append, List.cons.injEq] at heq
      have hx : c = x := heq.1
      subst hx
      exact absurd (List.mem_cons_self c b') h2
  | cons x a' ih =>
    intro b d1 d2 heq h1 h2
    cases b with
    | nil =>
      simp only [List.cons_append, List.nil_append, List.cons.injEq] at heq
      have hx : x = c := heq.1
      subst hx
      exact absurd (List.mem_cons_self x a') h1
    | cons y b' =>
      simp only [List.cons_append, List.cons.injEq] at heq
      obtain ⟨h3, h4⟩ := ih b' d1 d2 heq.2
        (fun hc => h1 (List.mem_cons_of_mem x hc))
        (fun hc => h2 (List.mem_cons_of_mem y hc))
      exact ⟨by rw [heq.1, h3], h4⟩

/-- A token is a prefix of `p ++ C` (for a token piece `p`) only if it is
    `p` itself. -/
theorem tok_prefix_eq {pat p : Str} (hpat : IsTok pat) (hp : IsTok p)
    {C : Str} (h : pat.isPrefixOf (p ++ C) = true) : pat = p := by
  obtain ⟨u, rfl, hu1, hu2⟩ := hpat
  obtain ⟨w, rfl, hw1, hw2⟩ := hp
  obtain ⟨t, ht⟩ := List.isPrefixOf_iff_prefix.mp h
  simp only [List.cons_append, List.append_assoc, List.singleton_append,
    List.cons.injEq, true_and] at ht
  obtain ⟨huw, -⟩ := first_sep_eq u w t C ht hu2 hw2
  rw [huw]

/-- Scanning a `'<'`-free block never matches a token pattern. -/
theorem replaceAll_chunk_append {A : Str} (hA : '<' ∉ A) {pat : Str}
    (hpat : IsTok pat) (C rep : Str) :
    replaceAll (A ++ C) pat rep = A ++ replaceAll C pat rep := by
  induction A with
  | nil => simp
  | cons a A' ih =>
    have hane : a ≠ '<' := fun h => hA (h ▸ List.mem_cons_self a A')
    rw [List.cons_append, replaceAll_cons, if_neg]
    · rw [ih fun h => hA (List.mem_cons_of_mem a h)]
      rfl
    · rintro ⟨-, hpre⟩
      obtain ⟨k', hk'⟩ := hpat.head
      rw [hk'] at hpre
      obtain ⟨t, ht⟩ := List.isPrefixOf_iff_prefix.mp hpre
      injection ht with h0 _
      exact hane h0.symm

/-- Scanning a token piece different from the pattern leaves it intact. -/
theorem replaceAll_tok_append {p pat : Str} (hp : IsTok p) (hpat : IsTok pat)
    (hne : p ≠ pat) (C rep : Str) :
    replaceAll (p ++ C) pat rep = p ++ replaceAll C pat rep := by
  obtain ⟨w, hw, hw1, hw2⟩ := hp
  have hptok : IsTok p := ⟨w, hw, hw1, hw2⟩
  have hwgt : '<' ∉ w ++ ['>'] := by
    intro h
    rcases List.mem_append.mp h with h | h
    · exact hw1 h
    · simp at h
  have hnotpre : ¬ ((pat ≠ [] ∧
      pat.isPrefixOf ('<' :: ((w ++ ['>']) ++ C)))) := by
    rintro ⟨-, hpre⟩
    have hpre' : pat.isPrefixOf (p ++ C) = true := by
      rw [hw, show (('<' :: w) ++ ['>']) ++ C = '<' :: ((w ++ ['>']) ++ C)
        by simp]
      exact hpre
    exact hne (tok_prefix_eq hpat hptok hpre').symm
  rw [hw]
  rw [show (('<' :: w) ++ ['>']) ++ C = '<' :: ((w ++ ['>']) ++ C) by simp]
  rw [replaceAll_cons, if_neg hnotpre]
  rw [replaceAll_chunk_append hwgt hpat C rep]
  simp

/-- Scanning the pattern itself replaces it. -/
theorem replaceAll_pat_append {pat : Str} (hpat : pat ≠ []) (C rep : Str) :
    replaceAll (pat ++ C) pat rep = rep ++ replaceAll C pat rep := by
  cases pat with
  | nil => exact absurd rfl hpat
  | cons x pat' =>
    have hdrop : (x :: (pat' ++ C)).drop (x :: pat').length = C := by
      rw [show x :: (pat' ++ C) = (x :: pat') ++ C from rfl]
      exact List.drop_left _ _
    rw [List.cons_append, replaceAll_cons, if_pos]
    · rw [hdrop]
    · refine ⟨by simp, ?_⟩
      refine List.isPrefixOf_iff_prefix.mpr ⟨C, ?_⟩
      rfl

/-- One `replaceAll` pass over a good piece decomposition rewrites exactly
    the pieces equal to the pattern. -/
theorem replaceAll_pieces {pat rep : Str} (hpat : IsTok pat) :
    ∀ pieces : List Str, (∀ p ∈ pieces, '<' ∉ p ∨ IsTok p) →
      replaceAll pieces.flatten pat rep =
        (pieces.map fun p => if p = pat then rep else p).flatten := by
  intro pieces
  induction pieces with
  | nil => intro _; rfl
  | cons p ps ih =>
    intro hgood
    rw [List.flatten_cons, List.map_cons, List.flatten_cons]
    by_cases hpe : p = pat
    · rw [if_pos hpe, hpe, replaceAll_pat_append hpat.ne_nil]
      rw [ih fun q hq => hgood q (List.mem_cons_of_mem p hq)]
    · rw [if_neg hpe]
      rcases hgood p (List.mem_cons_self p ps) with hfree | htok
      · rw [replaceAll_chunk_append hfree hpat]
        rw [ih fun q hq => hgood q (List.mem_cons_of_mem p hq)]
      · rw [replaceAll_tok_append htok hpat hpe]
        rw [ih fun q hq => hgood q (List.mem_cons_of_mem p hq)]

theorem unmask_as_fold (text : Str) (ctx : MaskingContext)
    (config : MaskingConfig) :
    unmask text ctx config =
      (sortBy lenGE (keyList ctx)).foldl
        (fun result ph => replaceAll result ph (replOf ctx config ph)) text := rfl

theorem foldl_replaceAll_nil (ctx : MaskingContext) (config : MaskingConfig) :
    ∀ L : List Str,
      L.foldl (fun result ph => replaceAll result ph (replOf ctx config ph)) [] =
        [] := by
  intro L
  induction L with
  | nil => rfl
  | cons k L ih => rw [List.foldl_cons, replaceAll_nil]; exact ih

theorem unmask_nil (ctx : MaskingContext) (config : MaskingConfig) :
    unmask [] ctx config = [] := by
  rw [unmask_as_fold]
  exact foldl_replaceAll_nil ctx config _

/-- Folding `replaceAll` over a list of token patterns rewrites each piece
    by the first matching pattern (replacements being `'<'`-free, a
    rewritten piece is never hit again). -/
theorem foldl_replaceAll_pieces (r : Str → Str) :
    ∀ L : List Str, (∀ k ∈ L, IsTok k) → (∀ k ∈ L, '<' ∉ r k) →
    ∀ pieces : List Str, (∀ p ∈ pieces, '<' ∉ p ∨ IsTok p) →
      L.foldl (fun result k => replaceAll result k (r k)) pieces.flatten =
        (pieces.map fun p => if p ∈ L then r p else p).flatten := by
  intro L
  induction L with
  | nil =>
    intro _ _ pieces _
    simp
  | cons k L' ih =>
    intro htok hrep pieces hgood
    rw [List.foldl_cons]
    rw [replaceAll_pieces (htok k (List.mem_cons_self k L')) pieces hgood]
    have hgood' : ∀ p ∈ pieces.map fun p => if p = k then r k else p,
        '<' ∉ p ∨ IsTok p := by
      intro p hp
      obtain ⟨q, hq, rfl⟩ := List.mem_map.mp hp
      by_cases hqk : q = k
      · rw [if_pos hqk]
        exact Or.inl (hrep k (List.mem_cons_self k L'))
      · rw [if_neg hqk]
        exact hgood q hq
    rw [ih (fun k' h => htok k' (List.mem_cons_of_mem k h))
        (fun k' h => hrep k' (List.mem_cons_of_mem k h)) _ hgood']
    rw [List.map_map]
    congr 1
    apply List.map_congr_left
    intro p hp
    simp only [Function.comp_apply]
    by_cases hpk : p = k
    · subst hpk
      rw [if_pos rfl]
      have hnotin : r p ∉ L' := by
        intro hin
        exact hrep p (List.mem_cons_self p L') ((htok (r p)
          (List.mem_cons_of_mem p hin)).mem_lt)
      rw [if_neg hnotin, if_pos (List.mem_cons_self p L')]
    · rw [if_neg hpk]
      by_cases hpl : p ∈ L'
      · rw [if_pos hpl, if_pos (List.mem_cons_of_mem k hpl)]
      · rw [if_neg hpl, if_neg (fun h => by
          rcases List.mem_cons.mp h with h | h
          · exact hpk h
          · exact hpl h)]

/-- `unmask` on a text split into good pieces resolves each piece
    independently. -/
theorem unmask_pieces (ctx : MaskingContext) (config : MaskingConfig)
    (hwf : WFCtx ctx config) (pieces : List Str)
    (hgood : GoodPieces ctx pieces) :
    unmask pieces.flatten ctx config =
      (pieces.map (resolvePiece ctx config)).flatten := by
  obtain ⟨hkeys, hnd, hmk⟩ := hwf
  have htokk : ∀ k ∈ keyList ctx, IsTok k := by
    intro k hk
    obtain ⟨kv, hkv, rfl⟩ := List.mem_map.mp hk
    exact (hkeys kv hkv).1
  have hrepl : ∀ k ∈ keyList ctx, '<' ∉ replOf ctx config k := by
    intro k hk
    obtain ⟨kv, hkv, rfl⟩ := List.mem_map.mp hk
    have hl : alookup ctx.mapping kv.1 = some kv.2 :=
      mem_alookup hnd (by rw [show (kv.1, kv.2) = kv from rfl]; exact hkv)
    rw [replOf, hl]
    by_cases hm : config.show_markers
    · rw [if_pos hm]
      intro h
      rcases List.mem_append.mp h with h | h
      · exact hmk h
      · exact (hkeys kv hkv).2 (by simpa using h)
    · rw [if_neg hm]
      intro h
      exact (hkeys kv hkv).2 (by simpa using h)
  have hgood' : ∀ p ∈ pieces, '<' ∉ p ∨ IsTok p := by
    intro p hp
    exact (hgood p hp).imp id (htokk p)
  rw [unmask_as_fold]
  rw [foldl_replaceAll_pieces (replOf ctx config) (sortBy lenGE (keyList ctx))
      (fun k hk => htokk k (mem_sortBy.mp hk))
      (fun k hk => hrepl k (mem_sortBy.mp hk)) pieces hgood']
  congr 1
  apply List.map_congr_left
  intro p hp
  rw [resolvePiece]
  by_cases hpk : p ∈ keyList ctx
  · rw [if_pos (mem_sortBy.mpr hpk), if_pos hpk]
  · rw [if_neg (fun h => hpk (mem_sortBy.mp h)), if_neg hpk]

/-- `unmask` distributes over a concatenation of two good texts. -/
theorem unmask_append (ctx : MaskingContext) (config : MaskingConfig)
    (hwf : WFCtx ctx config) {A B : Str}
    (hA : GoodText ctx A) (hB : GoodText ctx B) :
    unmask (A ++ B) ctx config = unmask A ctx config ++ unmask B ctx config := by
  obtain ⟨psA, hgA, hfA⟩ := hA
  obtain ⟨psB, hgB, hfB⟩ := hB
  have h1 : A ++ B = (psA ++ psB).flatten := by
    rw [List.flatten_append, hfA, hfB]
  rw [h1, ← hfA, ← hfB]
  rw [unmask_pieces ctx config hwf _
      (fun p hp => (List.mem_append.mp hp).elim (hgA p) (hgB p))]
  rw [unmask_pieces ctx config hwf psA hgA, unmask_pieces ctx config hwf psB hgB]
  rw [List.map_append, List.flatten_append]

/-- A list ending in `'>'` whose stem avoids `'>'` cannot have a `'>'` in a
    proper prefix. -/
theorem mem_proper_prefix_gt {w t p' : Str} (heq : w ++ ['>'] = t ++ p')
    (hp : p' ≠ []) (hw : '>' ∉ w) (ht : '>' ∈ t) : False := by
  have hpre : t <+: w ++ ['>'] := ⟨p', heq.symm⟩
  have hlen : t.length ≤ w.length := by
    have hL := congrArg List.length heq
    simp only [List.length_append, List.length_cons, List.length_nil] at hL
    have hplen : 0 < p'.length := List.length_pos.mpr hp
    omega
  have htw : t <+: w :=
    List.prefix_of_prefix_length_le hpre (List.prefix_append w ['>']) hlen
  exact hw (htw.sublist.mem ht)

/-- A good text splits at any boundary all of whose `'<'`s are answered by
    a later `'>'` within the left part. -/
theorem goodPieces_split_safe {ctx : MaskingContext}
    (hwf : ∀ k ∈ keyList ctx, IsTok k) :
    ∀ (pieces : List Str) (X Y : Str), GoodPieces ctx pieces →
      pieces.flatten = X ++ Y → SafeChunk X →
      GoodText ctx X ∧ GoodText ctx Y := by
  intro pieces
  induction pieces with
  | nil =>
    intro X Y _ hflat _
    obtain ⟨rfl, rfl⟩ := List.append_eq_nil.mp hflat.symm
    exact ⟨⟨[], fun p hp => absurd hp (by simp), rfl⟩,
      ⟨[], fun p hp => absurd hp (by simp), rfl⟩⟩
  | cons p ps ih =>
    intro X Y hgood hflat hsafe
    have hgp : GoodPiece ctx p := hgood p (List.mem_cons_self p ps)
    have hgps : GoodPieces ctx ps := fun q hq => hgood q (List.mem_cons_of_mem p hq)
    rw [List.flatten_cons] at hflat
    rcases List.append_eq_append_iff.mp hflat with ⟨X', hX, hrest⟩ | ⟨p', hp, hY⟩
    · have hsafe' : SafeChunk X' := by
        intro U V hUV
        exact hsafe (p ++ U) V (by rw [hX, hUV, List.append_assoc])
      obtain ⟨⟨psX, hgX, hfX⟩, hGY⟩ := ih X' Y hgps hrest hsafe'
      refine ⟨⟨p :: psX, ?_, ?_⟩, hGY⟩
      · intro q hq
        rcases List.mem_cons.mp hq with rfl | hq
        · exact hgp
        · exact hgX q hq
      · rw [List.flatten_cons, hfX, hX]
    · by_cases hp'nil : p' = []
      · subst hp'nil
        rw [List.append_nil] at hp
        rw [List.nil_append] at hY
        refine ⟨⟨[p], ?_, by simp [hp]⟩, ⟨ps, hgps, hY.symm⟩⟩
        intro q hq
        rw [List.mem_singleton] at hq
        subst hq
        exact hgp
      · rcases hgp with hfree | hkey
        · have hXfree : '<' ∉ X := by
            intro h
            exact hfree (by rw [hp]; exact List.mem_append.mpr (Or.inl h))
          have hpfree : '<' ∉ p' := by
            intro h
            exact hfree (by rw [hp]; exact List.mem_append.mpr (Or.inr h))
          refine ⟨⟨[X], ?_, by simp⟩, ⟨p' :: ps, ?_, ?_⟩⟩
          · intro q hq
            rw [List.mem_singleton] at hq
            subst hq
            exact Or.inl hXfree
          · intro q hq
            rcases List.mem_cons.mp hq with rfl | hq
            · exact Or.inl hpfree
            · exact hgps q hq
          · rw [List.flatten_cons, hY]
        · obtain ⟨w, hpw, hw1, hw2⟩ := hwf p hkey
          cases X with
          | nil =>
            refine ⟨⟨[], fun q hq => absurd hq (by simp), rfl⟩,
              ⟨p :: ps, hgood, ?_⟩⟩
            rw [List.flatten_cons, hY, hp, List.nil_append]
          | cons x t =>
            exfalso
            have heq : ('<' :: w) ++ ['>'] = (x :: t) ++ p' := by
              rw [← hpw, hp]
            rw [List.cons_append, List.cons_append] at heq
            injection heq with hx htl
            have hgt : '>' ∈ t := hsafe [] t (by rw [List.nil_append, ← hx])
            exact mem_proper_prefix_gt htl hp'nil hw2 hgt

/-- A good text splits cleanly just before any `'<'` that begins the right
    part (a token never straddles such a boundary). -/
theorem goodPieces_split_head {ctx : MaskingContext}
    (hwf : ∀ k ∈ keyList ctx, IsTok k) :
    ∀ (pieces : List Str) (X Y : Str), GoodPieces ctx pieces →
      pieces.flatten = X ++ '<' :: Y →
      GoodText ctx X ∧ GoodText ctx ('<' :: Y) := by
  intro pieces
  induction pieces with
  | nil =>
    intro X Y _ hflat
    exfalso
    have hL := congrArg List.length hflat
    simp only [List.flatten_nil, List.length_nil, List.length_append,
      List.length_cons] at hL
    omega
  | cons p ps ih =>
    intro X Y hgood hflat
    have hgp : GoodPiece ctx p := hgood p (List.mem_cons_self p ps)
    have hgps : GoodPieces ctx ps := fun q hq => hgood q (List.mem_cons_of_mem p hq)
    rw [List.flatten_cons] at hflat
    rcases List.append_eq_append_iff.mp hflat with ⟨X', hX, hrest⟩ | ⟨p', hp, hY⟩
    · obtain ⟨⟨psX, hgX, hfX⟩, hGY⟩ := ih X' Y hgps hrest
      refine ⟨⟨p :: psX, ?_, ?_⟩, hGY⟩
      · intro q hq
        rcases List.mem_cons.mp hq with rfl | hq
        · exact hgp
        · exact hgX q hq
      · rw [List.flatten_cons, hfX, hX]
    · by_cases hp'nil : p' = []
      · subst hp'nil
        rw [List.append_nil] at hp
        rw [List.nil_append] at hY
        refine ⟨⟨[p], ?_, by simp [hp]⟩, ⟨ps, hgps, hY.symm⟩⟩
        intro q hq
        rw [List.mem_singleton] at hq
        subst hq
        exact hgp
      · obtain ⟨p'', hp''⟩ : ∃ p'', p' = '<' :: p'' := by
          cases p' with
          | nil => exact absurd rfl hp'nil
          | cons a p'' =>
            have ha : '<' = a := by
              rw [List.cons_append] at hY
              injection hY with h1 _
            exact ⟨p'', by rw [ha]⟩
        rcases hgp with hfree | hkey
        · exact absurd (show '<' ∈ p by
            rw [hp, hp'']
            exact List.mem_append.mpr (Or.inr (List.mem_cons_self _ _))) hfree
        · obtain ⟨w, hpw, hw1, hw2⟩ := hwf p hkey
          cases X with
          | nil =>
            refine ⟨⟨[], fun q hq => absurd hq (by simp), rfl⟩,
              ⟨p :: ps, hgood, ?_⟩⟩
            rw [List.flatten_cons, hY, hp, List.nil_append]
          | cons x t =>
            exfalso
            have heq : ('<' :: w) ++ ['>'] = (x :: t) ++ p' := by
              rw [← hpw, hp]
            rw [List.cons_append, List.cons_append] at heq
            injection heq with hx htl
            have hin : '<' ∈ w ++ ['>'] := by
              rw [htl, hp'']
              exact List.mem_append.mpr (Or.inr (List.mem_cons_self _ _))
            rcases List.mem_append.mp hin with h | h
            · exact hw1 h
            · exact absurd h (by decide)

/-- `GoodText` version of the safe-boundary split. -/
theorem goodText_split_safe {ctx : MaskingContext}
    (hwf : ∀ k ∈ keyList ctx, IsTok k) {X Y : Str}
    (h : GoodText ctx (X ++ Y)) (hs : SafeChunk X) :
    GoodText ctx X ∧ GoodText ctx Y := by
  obtain ⟨ps, hg, hf⟩ := h
  exact goodPieces_split_safe hwf ps X Y hg hf hs

/-- `GoodText` version of the split just before a `'<'`. -/
theorem goodText_split_head {ctx : MaskingContext}
    (hwf : ∀ k ∈ keyList ctx, IsTok k) {X Y : Str}
    (h : GoodText ctx (X ++ '<' :: Y)) :
    GoodText ctx X ∧ GoodText ctx ('<' :: Y) := by
  obtain ⟨ps, hg, hf⟩ := h
  exact goodPieces_split_head hwf ps X Y hg hf

/-- Safety of the emitted prefix when the tail after the last `'<'`
    contains a `'>'`. -/
theorem safeChunk_of_last_lt {l : Str} {i : Nat}
    (hdropeq : l.drop i = '<' :: l.drop (i + 1)) (hnolt : '<' ∉ l.drop (i + 1))
    (hgt : '>' ∈ l.drop i) : SafeChunk l := by
  intro U V hUV
  have hdropU : l.drop U.length = '<' :: V := by
    rw [hUV, List.drop_left]
  have hnle : U.length ≤ i := by
    by_contra hlt
    push_neg at hlt
    have h2 : '<' ∈ (l.drop (i + 1)).drop (U.length - (i + 1)) := by
      rw [List.drop_drop, show i + 1 + (U.length - (i + 1)) = U.length by omega,
        hdropU]
      exact List.mem_cons_self _ _
    exact hnolt (List.mem_of_mem_drop h2)
  rcases Nat.eq_or_lt_of_le hnle with heqn | hltn
  · rw [heqn] at hdropU
    rw [hdropU] at hgt
    rcases List.mem_cons.mp hgt with h | h
    · exact absurd h (by decide)
    · exact h
  · have h1 : l.drop i = V.drop (i - U.length - 1) := by
      have e1 : l.drop i = (l.drop U.length).drop (i - U.length) := by
        rw [List.drop_drop]
        congr 1
        omega
      obtain ⟨j, hjj⟩ : ∃ j, i - U.length = j + 1 := ⟨i - U.length - 1, by omega⟩
      rw [e1, hdropU, hjj, List.drop_succ_cons]
      simp
    rw [h1] at hgt
    exact List.mem_of_mem_drop hgt

/-- `'<'`-free strings are safe. -/
theorem safeChunk_of_no_lt {l : Str} (h : '<' ∉ l) : SafeChunk l := by
  intro U V hUV
  refine absurd ?_ h
  rw [hUV]
  exact List.mem_append.mpr (Or.inr (List.mem_cons_self _ _))

/-- Threading good chunks through `unmaskStreamChunk` and flushing the
    final buffer reproduces `unmask` of the whole stream. -/
theorem streamGo_spec (ctx : MaskingContext) (config : MaskingConfig)
    (hwf : WFCtx ctx config) :
    ∀ (chunks : List Str) (b : Str), GoodText ctx (b ++ chunks.flatten) →
      (streamGo b chunks ctx config).1 ++
          flushStreamBuffer (streamGo b chunks ctx config).2 ctx config =
        unmask (b ++ chunks.flatten) ctx config := by
  have htokk : ∀ k ∈ keyList ctx, IsTok k := by
    intro k hk
    obtain ⟨kv, hkv, rfl⟩ := List.mem_map.mp hk
    exact (hwf.1 kv hkv).1
  intro chunks
  induction chunks with
  | nil =>
    intro b hgood
    simp only [streamGo, List.flatten_nil, List.append_nil, List.nil_append]
    rw [flushStreamBuffer]
    by_cases hb : b = []
    · rw [if_pos hb, hb, unmask_nil]
    · rw [if_neg hb]
  | cons c rest ih =>
    intro b hgood
    simp only [streamGo]
    cases hidx : lastIndexOfLT (b ++ c) with
    | none =>
      have hval : unmaskStreamChunk b c ctx config =
          (unmask (b ++ c) ctx config, []) := by
        simp only [unmaskStreamChunk, hidx]
      rw [hval]
      have hsafe : SafeChunk (b ++ c) := safeChunk_of_no_lt (lastIndexOfLT_none hidx)
      have hgood2 : GoodText ctx ((b ++ c) ++ rest.flatten) := by
        rw [List.append_assoc]
        rw [List.flatten_cons] at hgood
        exact hgood
      obtain ⟨hgX, hgY⟩ := goodText_split_safe htokk hgood2 hsafe
      have hIH := ih [] (by rw [List.nil_append]; exact hgY)
      rw [List.nil_append] at hIH
      rw [List.append_assoc, hIH]
      rw [List.flatten_cons, ← List.append_assoc]
      exact (unmask_append ctx config hwf hgX hgY).symm
    | some i =>
      obtain ⟨hlen, hdropeq, hnolt⟩ := lastIndexOfLT_some hidx
      by_cases hgt : '>' ∈ (b ++ c).drop i
      · have hval : unmaskStreamChunk b c ctx config =
            (unmask (b ++ c) ctx config, []) := by
          simp only [unmaskStreamChunk, hidx, if_pos hgt]
        rw [hval]
        have hsafe : SafeChunk (b ++ c) := safeChunk_of_last_lt hdropeq hnolt hgt
        have hgood2 : GoodText ctx ((b ++ c) ++ rest.flatten) := by
          rw [List.append_assoc]
          rw [List.flatten_cons] at hgood
          exact hgood
        obtain ⟨hgX, hgY⟩ := goodText_split_safe htokk hgood2 hsafe
        have hIH := ih [] (by rw [List.nil_append]; exact hgY)
        rw [List.nil_append] at hIH
        rw [List.append_assoc, hIH]
        rw [List.flatten_cons, ← List.append_assoc]
        exact (unmask_append ctx config hwf hgX hgY).symm
      · have hval : unmaskStreamChunk b c ctx config =
            (unmask ((b ++ c).take i) ctx config, (b ++ c).drop i) := by
          simp only [unmaskStreamChunk, hidx, if_neg hgt]
        rw [hval]
        have hsplit : b ++ (c :: rest).flatten =
            (b ++ c).take i ++ ('<' :: ((b ++ c).drop (i + 1) ++ rest.flatten)) := by
          rw [List.flatten_cons, ← List.append_assoc]
          conv_lhs => rw [← List.take_append_drop i (b ++ c), hdropeq]
          simp [List.append_assoc]
        have hgood2 := hgood
        rw [hsplit] at hgood2
        obtain ⟨hgX, hgY⟩ := goodText_split_head htokk hgood2
        have hbufgood : GoodText ctx ((b ++ c).drop i ++ rest.flatten) := by
          rw [hdropeq, List.cons_append]
          exact hgY
        have hIH := ih ((b ++ c).drop i) hbufgood
        rw [List.append_assoc, hIH]
        rw [← unmask_append ctx config hwf hgX hbufgood]
        rw [← List.append_assoc, List.take_append_drop, List.flatten_cons,
          List.append_assoc]

/-- C2 (amended): for every well-formed context/config pair (placeholder
    keys are bracket-delimited tokens without inner brackets, keys are not
    repeated, stored values and the marker text contain no `'<'`) and every
    chunking of a stream in which each `'<'` begins an occurrence of one of
    the context's placeholders, feeding the chunks in order through
    `unmaskStreamChunk` (starting from the empty buffer and threading each
    returned buffer into the next call) and then applying
    `flushStreamBuffer` to the final buffer yields outputs whose
    concatenation equals `unmask` of the whole stream. -/
theorem claim_C2_amended (ctx : MaskingContext) (config : MaskingConfig)
    (chunks : List Str) (hwf : WFCtx ctx config)
    (hgood : GoodText ctx chunks.flatten) :
    (streamGo [] chunks ctx config).1 ++
        flushStreamBuffer (streamGo [] chunks ctx config).2 ctx config =
      unmask chunks.flatten ctx config := by
  have h := streamGo_spec ctx config hwf chunks []
    (by rw [List.nil_append]; exact hgood)
  rw [List.nil_append] at h
  exact h

theorem claim_C2_amended_witness :
    (streamGo [] [['h','i',' ','<','X','_'], ['1','>','!']]
        ⟨[(['<','X','_','1','>'], ['a','b'])],
          [(['a','b'], ['<','X','_','1','>'])], [(['X'], 1)]⟩
        ⟨false, []⟩).1 ++
      flushStreamBuffer
        (streamGo [] [['h','i',' ','<','X','_'], ['1','>','!']]
          ⟨[(['<','X','_','1','>'], ['a','b'])],
            [(['a','b'], ['<','X','_','1','>'])], [(['X'], 1)]⟩
          ⟨false, []⟩).2
        ⟨[(['<','X','_','1','>'], ['a','b'])],
          [(['a','b'], ['<','X','_','1','>'])], [(['X'], 1)]⟩
        ⟨false, []⟩ =
    unmask ([['h','i',' ','<','X','_'], ['1','>','!']] : List Str).flatten
      ⟨[(['<','X','_','1','>'], ['a','b'])],
        [(['a','b'], ['<','X','_','1','>'])], [(['X'], 1)]⟩
      ⟨false, []⟩ := by
  apply claim_C2_amended
  · refine ⟨?_, by decide, by decide⟩
    intro kv hkv
    rw [List.mem_singleton] at hkv
    subst hkv
    exact ⟨⟨['X','_','1'], rfl, by decide, by decide⟩, by decide⟩
  · refine ⟨[['h','i',' '], ['<','X','_','1','>'], ['!']], ?_, by decide⟩
    intro q hq
    rcases List.mem_cons.mp hq with rfl | hq
    · exact Or.inl (by decide)
    rcases List.mem_cons.mp hq with rfl | hq
    · exact Or.inr (by decide)
    rcases List.mem_cons.mp hq with rfl | hq
    · exact Or.inl (by decide)
    · exact absurd hq (by simp)

/-- Membership after a record write. -/
theorem mem_aset : ∀ (m : List (Str × Str)) (k v : Str) (kv : Str × Str),
    kv ∈ aset m k v → kv ∈ m ∨ kv = (k, v) := by
  intro m
  induction m with
  | nil =>
    intro k v kv h
    rw [aset] at h
    rw [List.mem_singleton] at h
    exact Or.inr h
  | cons kv' rest ih =>
    intro k v kv h
    rw [aset] at h
    by_cases hk : kv'.1 = k
    · rw [if_pos (by cases kv'; exact hk)] at h
      rcases List.mem_cons.mp h with rfl | h
      · exact Or.inr rfl
      · exact Or.inl (List.mem_cons_of_mem _ h)
    · rw [if_neg (by cases kv'; exact hk)] at h
      rcases List.mem_cons.mp h with rfl | h
      · exact Or.inl (List.mem_cons_self _ _)
      · rcases ih k v kv h with h | h
        · exact Or.inl (List.mem_cons_of_mem _ h)
        · exact Or.inr h

/-- A generated placeholder is a well-formed token whenever the entity type
    is safe and avoids angle brackets. -/
theorem mkPlaceholder_isTok {t : Str} (h1 : '<' ∉ t) (h2 : '>' ∉ t)
    (hs : SafeType t) (n : Nat) : IsTok (mkPlaceholder t n) := by
  rw [mkPlaceholder_safe_eq hs]
  refine ⟨t ++ '_' :: natChars n, rfl, ?_, ?_⟩
  · intro h
    rcases List.mem_append.mp h with h | h
    · exact h1 h
    · rcases List.mem_cons.mp h with h | h
      · exact absurd h (by decide)
      · exact natChars_no_lt h
  · intro h
    rcases List.mem_append.mp h with h | h
    · exact h2 h
    · rcases List.mem_cons.mp h with h | h
      · exact absurd h (by decide)
      · exact natChars_no_gt h

/-- Slices of a `'<'`-free text are `'<'`-free. -/
theorem sliceL_no_lt {T : Str} (hT : '<' ∉ T) (s e : Nat) :
    '<' ∉ sliceL T s e := by
  intro h
  exact hT (List.mem_of_mem_drop (List.mem_of_mem_take h))

/-- Both branches of `assignStep` append exactly one pair, for the entity
    being processed. -/
theorem assignStep_snd (text : Str) (c : MaskingContext)
    (acc : List (PIIEntity × Str)) (e : PIIEntity) :
    ∃ p, (assignStep text (c, acc) e).2 = acc ++ [(e, p)] := by
  simp only [assignStep, generatePlaceholder]
  split
  · exact ⟨_, rfl⟩
  · exact ⟨_, rfl⟩

/-- The first pass pairs up exactly the sorted entities, in order. -/
theorem maskAssign_fst (text : Str) :
    ∀ (sorted : List PIIEntity) (c : MaskingContext)
      (acc : List (PIIEntity × Str)),
      ((sorted.foldl (assignStep text) (c, acc)).2).map Prod.fst =
        acc.map Prod.fst ++ sorted := by
  intro sorted
  induction sorted with
  | nil =>
    intro c acc
    simp
  | cons e rest ih =>
    intro c acc
    rw [List.foldl_cons]
    obtain ⟨p, hp⟩ := assignStep_snd text c acc e
    cases hstep : assignStep text (c, acc) e with
    | mk c1 acc1 =>
      rw [hstep] at hp
      simp only at hp
      rw [ih c1 acc1, hp]
      simp

/-- `phOf` returns the placeholder of some pair of the list whose entity is
    the one looked up. -/
theorem phOf_mem : ∀ (apairs : List (PIIEntity × Str)) (e : PIIEntity),
    e ∈ apairs.map Prod.fst → (e, phOf apairs e) ∈ apairs := by
  intro apairs
  induction apairs with
  | nil =>
    intro e he
    exact absurd he (by simp)
  | cons pr rest ih =>
    intro e he
    cases pr with
    | mk e' p =>
      rw [phOf]
      by_cases hee : e' = e
      · rw [if_pos hee, hee]
        exact List.mem_cons_self _ _
      · rw [if_neg hee]
        rw [List.map_cons, List.mem_cons] at he
        rcases he with rfl | he
        · exact absurd rfl hee
        · exact List.mem_cons_of_mem _ (ih e he)

/-- All mapping entries produced by the first pass over a `'<'`-free text
    with bracket-free entity types are token keys with `'<'`-free values. -/
theorem maskAssign_tok (text : Str) (htext : '<' ∉ text) :
    ∀ (sorted : List PIIEntity) (c : MaskingContext)
      (acc : List (PIIEntity × Str)),
      (∀ e ∈ sorted,
        ('<' ∉ e.entity_type ∧ '>' ∉ e.entity_type) ∧ SafeType e.entity_type) →
      (∀ kv ∈ c.mapping, IsTok kv.1 ∧ '<' ∉ kv.2) →
      ∀ kv ∈ (sorted.foldl (assignStep text) (c, acc)).1.mapping,
        IsTok kv.1 ∧ '<' ∉ kv.2 := by
  intro sorted
  induction sorted with
  | nil =>
    intro c acc _ hc kv hkv
    exact hc kv hkv
  | cons e rest ih =>
    intro c acc hty hc
    rw [List.foldl_cons]
    have hstep : ∀ kv ∈ (assignStep text (c, acc) e).1.mapping,
        IsTok kv.1 ∧ '<' ∉ kv.2 := by
      intro kv hkv
      rw [assignStep] at hkv
      by_cases hf :
          (alookup c.reverseMapping (sliceL text e.start e.endPos)).getD [] = []
      · rw [if_pos hf] at hkv
        simp only [generatePlaceholder] at hkv
        rcases mem_aset _ _ _ kv hkv with h | h
        · exact hc kv h
        · subst h
          refine ⟨mkPlaceholder_isTok (hty e (List.mem_cons_self e rest)).1.1
            (hty e (List.mem_cons_self e rest)).1.2
            (hty e (List.mem_cons_self e rest)).2 _, ?_⟩
          exact sliceL_no_lt htext _ _
      · rw [if_neg hf] at hkv
        exact hc kv hkv
    cases h2 : assignStep text (c, acc) e with
    | mk c1 acc1 =>
      rw [h2] at hstep
      simp only at hstep
      exact ih c1 acc1 (fun q hq => hty q (List.mem_cons_of_mem e hq)) hstep

/-- The interleaving as a flattened piece list. -/
theorem interPieces_flatten (T : Str) :
    ∀ (L : List (Nat × Nat × Str)) (prev : Nat),
      (interPieces T prev L).flatten = interleave T prev L := by
  intro L
  induction L with
  | nil =>
    intro prev
    simp [interPieces, interleave]
  | cons x L ih =>
    intro prev
    cases x with
    | mk s rest2 =>
      cases rest2 with
      | mk e ph =>
        rw [interPieces, interleave, List.flatten_cons, List.flatten_cons, ih]
        rw [List.append_assoc]

/-- A prefix that stops before the first masked span reads from the
    original text. -/
theorem interleave_cons_take (T : Str) (n s' e' : Nat) (ph' : Str)
    (L : List (Nat × Nat × Str)) (hns : n ≤ s') (hnT : n ≤ T.length) :
    (interleave T 0 ((s', e', ph') :: L)).take n = T.take n := by
  rw [interleave, List.drop_zero]
  have h1 : n ≤ (T.take s').length := by
    rw [List.length_take]
    omega
  rw [List.append_assoc, List.take_append_of_le_length h1, List.take_take]
  rw [Nat.min_eq_left hns]

/-- Dropping up to the first masked span shifts the interleaving's
    lower bound. -/
theorem interleave_cons_drop (T : Str) (n s' e' : Nat) (ph' : Str)
    (L : List (Nat × Nat × Str)) (hns : n ≤ s') (hnT : n ≤ T.length) :
    (interleave T 0 ((s', e', ph') :: L)).drop n =
      interleave T n ((s', e', ph') :: L) := by
  rw [interleave, interleave, List.drop_zero]
  have h1 : n ≤ (T.take s').length := by
    rw [List.length_take]
    omega
  rw [List.append_assoc, List.drop_append_of_le_length h1, List.append_assoc]

/-- `mask`'s second pass (a right fold of splices over the ascending span
    list) produces the interleaving of text chunks and placeholders. -/
theorem foldr_splice (T : Str) (f : PIIEntity → Str) :
    ∀ asc : List PIIEntity,
      asc.Pairwise (fun a b => a.endPos ≤ b.start) →
      (∀ e ∈ asc, e.start ≤ e.endPos ∧ e.endPos ≤ T.length) →
      asc.foldr (fun e result => spliceAt result e.start e.endPos (f e)) T =
        interleave T 0 (asc.map fun e => (e.start, e.endPos, f e)) := by
  intro asc
  induction asc with
  | nil =>
    intro _ _
    simp [interleave]
  | cons e rest ih =>
    intro hpw hbnd
    obtain ⟨hhead, hpw'⟩ := List.pairwise_cons.mp hpw
    have hbe := hbnd e (List.mem_cons_self e rest)
    rw [List.foldr_cons, ih hpw' (fun q hq => hbnd q (List.mem_cons_of_mem e hq))]
    rw [List.map_cons, interleave, List.drop_zero, spliceAt]
    cases rest with
    | nil =>
      simp [interleave]
    | cons e2 rest2 =>
      have h2 := hhead e2 (List.mem_cons_self e2 rest2)
      have hb2 := hbnd e2 (List.mem_cons_of_mem e (List.mem_cons_self e2 rest2))
      rw [List.map_cons]
      rw [interleave_cons_take T e.start e2.start e2.endPos (f e2) _
        (by omega) (by omega)]
      rw [interleave_cons_drop T e.endPos e2.start e2.endPos (f e2) _
        (by omega) (by omega)]

/-- The interleaving's pieces are good for any context whose keys include
    the interleaved placeholders, over a `'<'`-free text. -/
theorem interPieces_good {ctx : MaskingContext} {T : Str} (hT : '<' ∉ T) :
    ∀ (L : List (Nat × Nat × Str)) (prev : Nat),
      (∀ x ∈ L, x.2.2 ∈ keyList ctx) →
      GoodPieces ctx (interPieces T prev L) := by
  intro L
  induction L with
  | nil =>
    intro prev _
    intro q hq
    rw [interPieces, List.mem_singleton] at hq
    subst hq
    exact Or.inl fun h => hT (List.mem_of_mem_drop h)
  | cons x L ih =>
    intro prev hx
    cases x with
    | mk s rest2 =>
      cases rest2 with
      | mk e ph =>
        intro q hq
        rw [interPieces] at hq
        rcases List.mem_cons.mp hq with rfl | hq
        · exact Or.inl fun h =>
            hT (List.mem_of_mem_take (List.mem_of_mem_drop h))
        rcases List.mem_cons.mp hq with rfl | hq
        · exact Or.inr (hx (s, e, q) (List.mem_cons_self _ _))
        · exact ih e (fun y hy => hx y (List.mem_cons_of_mem _ hy)) q hq

/-- Resolving the interleaving's pieces (placeholders mapping back to the
    slices they replaced) reassembles the original text. -/
theorem interPieces_resolve (ctx : MaskingContext) (config : MaskingConfig)
    (T : Str) (hT : '<' ∉ T) (hkeys : ∀ k ∈ keyList ctx, '<' ∈ k) :
    ∀ (asc : List PIIEntity) (f : PIIEntity → Str) (prev : Nat),
      asc.Pairwise (fun a b => a.endPos ≤ b.start) →
      (∀ e ∈ asc, e.start ≤ e.endPos) →
      (∀ e ∈ asc, prev ≤ e.start) →
      (∀ e ∈ asc, resolvePiece ctx config (f e) = sliceL T e.start e.endPos) →
      ((interPieces T prev (asc.map fun e => (e.start, e.endPos, f e))).map
          (resolvePiece ctx config)).flatten = T.drop prev := by
  intro asc
  induction asc with
  | nil =>
    intro f prev _ _ _ _
    rw [List.map_nil, interPieces, List.map_cons, List.map_nil,
      List.flatten_cons, List.flatten_nil, List.append_nil]
    rw [resolvePiece, if_neg]
    intro h
    exact hT (List.mem_of_mem_drop (hkeys _ h))
  | cons e rest ih =>
    intro f prev hpw hse hprev hres
    obtain ⟨hhead, hpw'⟩ := List.pairwise_cons.mp hpw
    rw [List.map_cons, interPieces, List.map_cons, List.map_cons,
      List.flatten_cons, List.flatten_cons]
    have hchunk : resolvePiece ctx config ((T.take e.start).drop prev) =
        (T.take e.start).drop prev := by
      rw [resolvePiece, if_neg]
      intro h
      exact hT (List.mem_of_mem_take (List.mem_of_mem_drop (hkeys _ h)))
    rw [hchunk, hres e (List.mem_cons_self e rest),
      ih f e.endPos hpw' (fun q hq => hse q (List.mem_cons_of_mem e hq))
        (fun q hq => hhead q hq)
        (fun q hq => hres q (List.mem_cons_of_mem e hq))]
    have hpe : prev ≤ e.start := hprev e (List.mem_cons_self e rest)
    have hsee : e.start ≤ e.endPos := hse e (List.mem_cons_self e rest)
    rw [sliceL, List.drop_take]
    conv_rhs => rw [← List.take_append_drop (e.start - prev) (T.drop prev)]
    congr 1
    rw [List.drop_drop, show prev + (e.start - prev) = e.start by omega]
    conv_rhs => rw [← List.take_append_drop (e.endPos - e.start) (T.drop e.start)]
    congr 1
    rw [List.drop_drop, show e.start + (e.endPos - e.start) = e.endPos by omega]

/-- With pairwise-distinct starts the ascending sort is strictly
    increasing. -/
theorem sortBy_leStart_strict (S : List PIIEntity)
    (hd : S.Pairwise fun a b => a.start ≠ b.start) :
    (sortBy leStart S).Pairwise fun a b => a.start < b.start := by
  have htot : ∀ a b : PIIEntity, leStart a b = true ∨ leStart b a = true := by
    intro a b
    simp only [leStart, decide_eq_true_eq]
    omega
  have htr : ∀ a b c : PIIEntity,
      leStart a b = true → leStart b c = true → leStart a c = true := by
    intro a b c
    simp only [leStart, decide_eq_true_eq]
    omega
  have h1 := sortBy_pairwise htot htr S
  have h2 : (sortBy leStart S).Pairwise fun a b => a.start ≠ b.start :=
    ((sortBy_perm leStart S).symm.pairwise_iff fun h => Ne.symm h).mp hd
  refine (h1.and h2).imp ?_
  intro a b hab
  obtain ⟨hle, hne⟩ := hab
  simp only [leStart, decide_eq_true_eq] at hle
  omega

/-- With pairwise-distinct starts the descending sort is strictly
    decreasing. -/
theorem sortBy_geStart_strict (S : List PIIEntity)
    (hd : S.Pairwise fun a b => a.start ≠ b.start) :
    (sortBy geStart S).Pairwise fun a b => b.start < a.start := by
  have htot : ∀ a b : PIIEntity, geStart a b = true ∨ geStart b a = true := by
    intro a b
    simp only [geStart, decide_eq_true_eq]
    omega
  have htr : ∀ a b c : PIIEntity,
      geStart a b = true → geStart b c = true → geStart a c = true := by
    intro a b c
    simp only [geStart, decide_eq_true_eq]
    omega
  have h1 := sortBy_pairwise htot htr S
  have h2 : (sortBy geStart S).Pairwise fun a b => a.start ≠ b.start :=
    ((sortBy_perm geStart S).symm.pairwise_iff fun h => Ne.symm h).mp hd
  refine (h1.and h2).imp ?_
  intro a b hab
  obtain ⟨hle, hne⟩ := hab
  simp only [geStart, decide_eq_true_eq] at hle
  omega

/-- With pairwise-distinct starts the descending sort is the reversed
    ascending sort (both JS sorts are stable, hence unique here). -/
theorem sortBy_geStart_eq_reverse (S : List PIIEntity)
    (hd : S.Pairwise fun a b => a.start ≠ b.start) :
    sortBy geStart S = (sortBy leStart S).reverse := by
  refine perm_pairwise_eq (r := fun a b : PIIEntity => b.start < a.start)
    ?_ ?_ ?_ ?_
  · intro a b h1 h2
    omega
  · exact (sortBy_perm geStart S).trans
      ((sortBy_perm leStart S).symm.trans (List.reverse_perm _).symm)
  · exact sortBy_geStart_strict S hd
  · rw [List.pairwise_reverse]
    exact sortBy_leStart_strict S hd

/-- `unmask` ignores the marker text when markers are off. -/
theorem unmask_no_markers (text : Str) (ctx : MaskingContext) (m : Str) :
    unmask text ctx ⟨false, m⟩ = unmask text ctx ⟨false, []⟩ := rfl

/-- C1 (amended): for every `'<'`-free text `T` and every span set whose
    spans satisfy `start < end ≤ |T|`, are pairwise disjoint, and carry
    entity types free of angle brackets and safe for the placeholder
    template (no dollar patterns, no embedded count slot), masking `T` into
    a fresh context and unmasking the result with any config with
    `show_markers = false` returns exactly `T`. -/
theorem claim_C1_amended (T : Str) (S : List PIIEntity) (config : MaskingConfig)
    (hT : '<' ∉ T)
    (hb : ∀ e ∈ S, e.start < e.endPos ∧ e.endPos ≤ T.length)
    (hty : ∀ e ∈ S, '<' ∉ e.entity_type ∧ '>' ∉ e.entity_type)
    (hsafe : ∀ e ∈ S, SafeType e.entity_type)
    (hdisj : S.Pairwise fun a b => a.endPos ≤ b.start ∨ b.endPos ≤ a.start)
    (hsm : config.show_markers = false) :
    unmask (mask T S createMaskingContext).masked
      (mask T S createMaskingContext).context config = T := by
  cases config with
  | mk sm mt =>
    simp only at hsm
    subst hsm
    by_cases hS : S = []
    · subst hS
      rfl
    · have hdstart : S.Pairwise fun a b => a.start ≠ b.start := by
        refine hdisj.imp_of_mem ?_
        intro a b ha hb2 hD
        rcases hD with h | h
        · have := (hb a ha).1
          omega
        · have := (hb b hb2).1
          omega
      have hball : ∀ e ∈ sortBy leStart S,
          e.start < e.endPos ∧ e.endPos ≤ T.length :=
        fun e he => hb e (mem_sortBy.mp he)
      have hasc_lt := sortBy_leStart_strict S hdstart
      have hasc_disj : (sortBy leStart S).Pairwise
          fun a b => a.endPos ≤ b.start ∨ b.endPos ≤ a.start :=
        ((sortBy_perm leStart S).symm.pairwise_iff fun h => h.symm).mp hdisj
      have h3 : (sortBy leStart S).Pairwise fun a b => a.endPos ≤ b.start := by
        refine (hasc_lt.and hasc_disj).imp_of_mem ?_
        intro a b ha hb2 hab
        obtain ⟨hlt, hD⟩ := hab
        rcases hD with h | h
        · exact h
        · have := (hball b hb2).1
          omega
      cases hma : maskAssign T (sortBy leStart S) createMaskingContext with
      | mk ctx2 apairs =>
        have hma' : (sortBy leStart S).foldl (assignStep T)
            (createMaskingContext, []) = (ctx2, apairs) := hma
        have hmask : mask T S createMaskingContext =
            ⟨(sortBy geStart S).foldl
                (fun result e => spliceAt result e.start e.endPos (phOf apairs e)) T,
              ctx2⟩ := by
          simp only [mask, if_neg hS, hma]
        have hspec := maskAssign_fold_spec T (sortBy leStart S)
          createMaskingContext [] ctxInv_create
          fun e he => hsafe e (mem_sortBy.mp he)
        rw [hma'] at hspec
        obtain ⟨hinv, ⟨tail, htail⟩, ⟨ps, hps, hlook⟩⟩ := hspec
        rw [List.nil_append] at hps
        subst hps
        have hfst : apairs.map Prod.fst = sortBy leStart S := by
          have h := maskAssign_fst T (sortBy leStart S) createMaskingContext []
          rw [hma'] at h
          simpa using h
        have htokctx : ∀ kv ∈ ctx2.mapping, IsTok kv.1 ∧ '<' ∉ kv.2 := by
          have h := maskAssign_tok T hT (sortBy leStart S) createMaskingContext []
            (fun e he => ⟨hty e (mem_sortBy.mp he), hsafe e (mem_sortBy.mp he)⟩)
            (by
              intro kv hkv
              exact absurd hkv (by simp [createMaskingContext]))
          rw [hma'] at h
          exact h
        have hWF0 : WFCtx ctx2 ⟨false, []⟩ := ⟨htokctx, hinv.2.1, by simp⟩
        have hkeysLT : ∀ k ∈ keyList ctx2, '<' ∈ k := by
          intro k hk
          obtain ⟨kv, hkv, rfl⟩ := List.mem_map.mp hk
          exact (htokctx kv hkv).1.mem_lt
        have hphkey : ∀ e ∈ sortBy leStart S,
            phOf apairs e ∈ keyList ctx2 ∧
              alookup ctx2.mapping (phOf apairs e) =
                some (sliceL T e.start e.endPos) := by
          intro e he
          have hmem : (e, phOf apairs e) ∈ apairs :=
            phOf_mem apairs e (by rw [hfst]; exact he)
          have hl := hlook _ hmem
          have hrm := alookup_mem hl
          rw [hinv.1] at hrm
          obtain ⟨kv, hkv, heq⟩ := List.mem_map.mp hrm
          have h1 : kv.2 = sliceL T e.start e.endPos := congrArg Prod.fst heq
          have h2 : kv.1 = phOf apairs e := congrArg Prod.snd heq
          constructor
          · rw [← h2]
            exact List.mem_map.mpr ⟨kv, hkv, rfl⟩
          · rw [← h2, ← h1]
            exact mem_alookup hinv.2.1
              (by rw [show (kv.1, kv.2) = kv from rfl]; exact hkv)
        have hres : ∀ e ∈ sortBy leStart S,
            resolvePiece ctx2 ⟨false, []⟩ (phOf apairs e) =
              sliceL T e.start e.endPos := by
          intro e he
          obtain ⟨hk, hl⟩ := hphkey e he
          rw [resolvePiece, if_pos hk, replOf, if_neg (by simp), hl,
            Option.getD_some]
        have hmasked : (sortBy geStart S).foldl
            (fun result e => spliceAt result e.start e.endPos (phOf apairs e)) T =
              interleave T 0
                ((sortBy leStart S).map fun e => (e.start, e.endPos, phOf apairs e)) := by
          rw [sortBy_geStart_eq_reverse S hdstart, List.foldl_reverse]
          exact foldr_splice T (phOf apairs) (sortBy leStart S) h3
            (fun e he => ⟨(hball e he).1.le, (hball e he).2⟩)
        rw [hmask]
        show unmask ((sortBy geStart S).foldl
            (fun result e => spliceAt result e.start e.endPos (phOf apairs e)) T)
          ctx2 ⟨false, mt⟩ = T
        rw [unmask_no_markers, hmasked, ← interPieces_flatten]
        rw [unmask_pieces ctx2 ⟨false, []⟩ hWF0 _
          (interPieces_good hT _ 0 (by
            intro x hx
            obtain ⟨e, he, rfl⟩ := List.mem_map.mp hx
            exact (hphkey e he).1))]
        rw [interPieces_resolve ctx2 ⟨false, []⟩ T hT hkeysLT
          (sortBy leStart S) (phOf apairs) 0 h3
          (fun e he => (hball e he).1.le)
          (fun e he => Nat.zero_le _) hres]
        rw [List.drop_zero]

theorem claim_C1_amended_witness :
    unmask (mask ['a','b','c']
        [⟨['X'], 0, 1, 1⟩, ⟨['Y'], 2, 3, 1⟩] createMaskingContext).masked
      (mask ['a','b','c']
        [⟨['X'], 0, 1, 1⟩, ⟨['Y'], 2, 3, 1⟩] createMaskingContext).context
      ⟨false, ['m']⟩ = ['a','b','c'] := by
  apply claim_C1_amended
  · decide
  · decide
  · decide
  · decide
  · decide
  · rfl

end Pasteguard
